import Mathlib

/-!
# WuziGodis `tcp` package: echo handler and server lifecycle

A shallow embedding of `tcp/echo.go` and `tcp/server.go`.

* Bytes are natural numbers; a Go `string`/`[]byte` is a `List Nat`.
* A `net.Conn` is identified by a number.  What the peer sends on it is a
  finite list of bytes followed by a terminal read condition (`io.EOF` or
  another error); the outcome of the n-th `conn.Write` is given by an oracle.
* `sync.Map` used as a set is a list of keys.  `rangeClose` is `Range` when no
  other goroutine touches the map during the call; `Range` running alongside
  calls of `Handle` is modelled key by key in `Sys.step`.
* Calls to `logger` have no effect on the modelled state and are left out.
-/

namespace WuziGodis
namespace tcp

/-! ## echo.go : data model -/

/-- The non-nil error of a read: `io.EOF`, or any other error. -/
inductive ReadErr
  | EOF
  | other (code : Nat)
  deriving DecidableEq, Repr

/-- The `bufio.Reader` wrapped around a connection: the bytes the peer still
delivers, and the error every read reports once they are used up. -/
structure Reader where
  buf : List Nat
  ending : ReadErr
  deriving DecidableEq, Repr

/-- Cut a byte list after the first occurrence of `delim`; `none` when the
delimiter does not occur. -/
def splitDelim (delim : Nat) : List Nat → Option (List Nat × List Nat)
  | [] => none
  | b :: bs =>
    if b = delim then some ([b], bs)
    else
      match splitDelim delim bs with
      | some (l, rest) => some (b :: l, rest)
      | none => none

/-- The call `reader.ReadString(delim)`: the bytes up to and including the first
delimiter with a nil error, or, when the stream ends first, the bytes read so
far together with the error. -/
def Reader.ReadString (r : Reader) (delim : Nat) :
    (List Nat × Option ReadErr) × Reader :=
  match splitDelim delim r.buf with
  | some (l, rest) => ((l, none), { r with buf := rest })
  | none => ((r.buf, some r.ending), { r with buf := [] })

/-- An `*EchoClient`: `ptr` is the address of the struct (its identity as a map
key), `Conn` the connection it wraps.  The `Waiting` field is threaded through
`Handle` as a counter. -/
structure EchoClient where
  ptr : Nat
  Conn : Nat
  deriving DecidableEq, Repr

/-- Observable actions of the handler, in program order.  Events on the drain
token carry the value of the token right after the event; reads and writes carry
its value while they run. -/
inductive Event
  | connClose (conn : Nat)
  | closingSet (v : Bool)
  | store (client : EchoClient)
  | delete (client : EchoClient)
  | readString (conn : Nat) (waiting : Nat)
  | waitingAdd (client : EchoClient) (waiting : Nat)
  | write (conn : Nat) (b : List Nat) (ok : Bool) (waiting : Nat)
  | waitingDone (client : EchoClient) (waiting : Nat)
  | waitWithTimeout (client : EchoClient) (ms : Nat) (timedOut : Bool)
  deriving DecidableEq, Repr

/-- The struct `EchoHandler`: the set of active clients and the closing flag. -/
structure EchoHandler where
  activeConn : List EchoClient
  closing : Bool
  deriving DecidableEq, Repr

/-- The handler returned by `MakeEchoHandler`: zero-valued fields. -/
def MakeEchoHandler : EchoHandler := ⟨[], false⟩

/-- The operation `sync.Map.Store(key, struct{}{})`. -/
def Store (m : List EchoClient) (c : EchoClient) : List EchoClient :=
  if c ∈ m then m else m ++ [c]

/-- The operation `sync.Map.Delete(key)`. -/
def Delete (m : List EchoClient) (c : EchoClient) : List EchoClient :=
  m.filter (fun x => decide (x ≠ c))

/-- What a call of `Handle` leaves behind: the handler, the events it performed
and the final value of the client's drain token. -/
structure HandleResult where
  h : EchoHandler
  events : List Event
  waiting : Nat
  deriving DecidableEq, Repr

/-- The result of one pass through the body of the read loop. -/
structure IterResult where
  h : EchoHandler
  waiting : Nat
  events : List Event
  again : Bool
  deriving DecidableEq, Repr

/-! ## echo.go : operations -/

/-- One pass through the body of the `for` loop of `Handle` (lines 62-86), given
what `ReadString` returned and whether the write succeeds.  `again` tells whether
the loop goes round once more. -/
def EchoHandler.handleIter (h : EchoHandler) (client : EchoClient) (waiting : Nat)
    (rd : List Nat × Option ReadErr) (wok : Bool) : IterResult :=
  match rd with
  | (_, some ReadErr.EOF) =>
    ⟨{ h with activeConn := Delete h.activeConn client }, waiting,
      [Event.readString client.Conn waiting, Event.delete client], false⟩
  | (_, some (ReadErr.other _)) =>
    ⟨h, waiting, [Event.readString client.Conn waiting], false⟩
  | (msg, none) =>
    ⟨h, waiting + 1 - 1,
      [Event.readString client.Conn waiting,
       Event.waitingAdd client (waiting + 1),
       Event.write client.Conn msg wok (waiting + 1),
       Event.waitingDone client (waiting + 1 - 1)], true⟩

/-- The `for` loop of `Handle`, bounded by `fuel` passes.  `n` counts the writes
made so far and indexes the write oracle. -/
def EchoHandler.handleLoop (client : EchoClient) (writeOk : Nat → Bool) :
    Nat → EchoHandler → Reader → Nat → Nat → Option HandleResult
  | 0, _, _, _, _ => none
  | fuel + 1, h, r, waiting, n =>
    let it := h.handleIter client waiting (r.ReadString 10).1 (writeOk n)
    if it.again then
      match EchoHandler.handleLoop client writeOk fuel it.h (r.ReadString 10).2 it.waiting (n + 1) with
      | some res => some { res with events := it.events ++ res.events }
      | none => none
    else some ⟨it.h, it.events, it.waiting⟩

/-- The first statements of `Handle` (lines 50-58): reject when closing, else
allocate the client at address `ptr` and register it.  Returns the client when
the call goes on to the read loop. -/
def EchoHandler.handleEnter (h : EchoHandler) (ptr conn : Nat) :
    EchoHandler × List Event × Option EchoClient :=
  if h.closing then (h, [Event.connClose conn], none)
  else
    let client : EchoClient := ⟨ptr, conn⟩
    ({ h with activeConn := Store h.activeConn client }, [Event.store client], some client)

/-- The method `EchoHandler.Handle(ctx, conn)`.  Every pass of the loop that
goes round again consumes at least one byte, so `r.buf.length + 1` passes are
enough (see `handleLoop_token`). -/
def EchoHandler.Handle (h : EchoHandler) (ptr conn : Nat) (r : Reader)
    (writeOk : Nat → Bool) : Option HandleResult :=
  match h.handleEnter ptr conn with
  | (h1, evs, none) => some ⟨h1, evs, 0⟩
  | (h1, evs, some client) =>
    match EchoHandler.handleLoop client writeOk (r.buf.length + 1) h1 r 0 0 with
    | some res => some { res with events := evs ++ res.events }
    | none => none

/-- The method `EchoClient.Close()`: wait for the drain token for at most ten
seconds, whatever the outcome close the connection. -/
def EchoClient.Close (c : EchoClient) (timedOut : Bool) : List Event :=
  [Event.waitWithTimeout c (10 * 1000) timedOut, Event.connClose c.Conn]

/-- The sweep `h.activeConn.Range(...)` of `Close` when nothing else touches the
map meanwhile: the callback always returns `true`, so every key is visited. -/
def rangeClose (timedOut : EchoClient → Bool) : List EchoClient → List Event
  | [] => []
  | c :: cs => c.Close (timedOut c) ++ rangeClose timedOut cs

/-- The method `EchoHandler.Close()` run with no other step in between.  The
third component is the returned error (`none` is `nil`). -/
def EchoHandler.Close (h : EchoHandler) (timedOut : EchoClient → Bool) :
    EchoHandler × List Event × Option Nat :=
  let h1 := { h with closing := true }
  (h1, Event.closingSet true :: rangeClose timedOut h1.activeConn, none)

/-- The writes in a trace, in order: the connection written to and the bytes. -/
def writesOf : List Event → List (Nat × List Nat)
  | [] => []
  | Event.write c b _ _ :: es => (c, b) :: writesOf es
  | _ :: es => writesOf es

/-- Increments of a drain token. -/
def Event.isAdd : Event → Bool
  | Event.waitingAdd _ _ => true
  | _ => false

/-- Decrements of a drain token. -/
def Event.isDone : Event → Bool
  | Event.waitingDone _ _ => true
  | _ => false

/-- Writes to a connection. -/
def Event.isWrite : Event → Bool
  | Event.write _ _ _ _ => true
  | _ => false

/-- The outcomes of the writes in a trace, in order. -/
def writeOutcomes : List Event → List Bool
  | [] => []
  | Event.write _ _ ok _ :: es => ok :: writeOutcomes es
  | _ :: es => writeOutcomes es

/-! ## echo.go : one handler shared by concurrent calls

Calls of `Handle` run on their own goroutines and interleave with each other and
with `Close`.  A step of `Handle` is its closing test (lines 50-53), the
registration of its client (lines 55-58), or one pass of a running call through
the read loop (lines 62-86); `enter` is the test and the registration with no
step in between.  A step of `Close` is the setting of the flag (line 93), the
start of `Range`, the arrival of `Range` at one key with the callback run on it
(lines 95-99), or the return; `close` is a whole call of `Close` with no step in
between.  `sync.Map.Range` is taken as in the Go library: it fixes the keys to
go through when it starts, reaches them in any order, and skips a key that has
been deleted by the time it reaches it. -/

/-- Where the call of `Close` that runs alongside the calls of `Handle` stands. -/
inductive ClosePc
  | idle
  | flagSet
  | sweeping
  | returned
  deriving DecidableEq, Repr

/-- The handler, the allocator, the calls of `Handle` between their closing test
and their registration (`pending`) and inside the read loop (`running`), and the
call of `Close` with the keys its `Range` has still to reach (`todo`).  The
fields from `trace` on are history variables: they record what has happened and
are never read by a step. -/
structure Sys where
  h : EchoHandler
  nextPtr : Nat
  running : List EchoClient
  pending : List Nat
  closePc : ClosePc
  todo : List EchoClient
  trace : List Event
  registered : List EchoClient
  sawEOF : List EchoClient
  sawErr : List EchoClient
  swept : List EchoClient
  atStart : List EchoClient
  visited : List (EchoClient × Bool)
  closeTrace : List Event
  closeRet : Option (Option Nat)
  deriving DecidableEq, Repr

/-- A step of the shared handler. -/
inductive Action
  | enter (conn : Nat)
  | iter (c : EchoClient) (rd : List Nat × Option ReadErr) (wok : Bool)
  | close (timedOut : List EchoClient)
  | check (conn : Nat)
  | store (conn : Nat)
  | closeSet
  | rangeStart
  | rangeStep (c : EchoClient) (timedOut : Bool)
  | closeEnd
  deriving DecidableEq, Repr

/-- A fresh handler from `MakeEchoHandler`, no call running. -/
def Sys.init : Sys :=
  ⟨MakeEchoHandler, 0, [], [], ClosePc.idle, [], [], [], [], [], [], [], [], [], none⟩

/-- Whether a read result carries `io.EOF`. -/
def isEOF : Option ReadErr → Bool
  | some ReadErr.EOF => true
  | _ => false

/-- Whether a read result carries an error other than `io.EOF`. -/
def isOtherErr : Option ReadErr → Bool
  | some (ReadErr.other _) => true
  | _ => false

/-- The steps that are statements of `Close`. -/
def Action.ofClose : Action → Bool
  | Action.close _ => true
  | Action.closeSet => true
  | Action.rangeStart => true
  | Action.rangeStep _ _ => true
  | Action.closeEnd => true
  | _ => false

/-- One step; `none` when the step is not possible: a pass of the loop for a
call that is not running, a registration for a call that has not passed the
test, a statement of `Close` out of its order, a key `Range` is not to reach. -/
def Sys.step (s : Sys) : Action → Option Sys
  | Action.enter conn =>
    match s.h.handleEnter s.nextPtr conn with
    | (h1, evs, none) => some { s with h := h1, trace := s.trace ++ evs }
    | (h1, evs, some c) =>
      some { s with h := h1, trace := s.trace ++ evs, nextPtr := s.nextPtr + 1,
                    running := c :: s.running, registered := c :: s.registered }
  | Action.iter c rd wok =>
    if c ∈ s.running then
      let it := s.h.handleIter c 0 rd wok
      some { s with h := it.h, trace := s.trace ++ it.events,
                    running := if it.again then s.running else s.running.filter (fun x => decide (x ≠ c)),
                    sawEOF := if isEOF rd.2 then c :: s.sawEOF else s.sawEOF,
                    sawErr := if isOtherErr rd.2 then c :: s.sawErr else s.sawErr }
    else none
  | Action.close timedOut =>
    let res := s.h.Close (fun c => decide (c ∈ timedOut))
    some { s with h := res.1, trace := s.trace ++ res.2.1, swept := s.h.activeConn ++ s.swept }
  | Action.check conn =>
    if s.h.closing then some { s with trace := s.trace ++ [Event.connClose conn] }
    else some { s with pending := conn :: s.pending }
  | Action.store conn =>
    if conn ∈ s.pending then
      let client : EchoClient := ⟨s.nextPtr, conn⟩
      some { s with h := { s.h with activeConn := Store s.h.activeConn client },
                    trace := s.trace ++ [Event.store client], nextPtr := s.nextPtr + 1,
                    pending := s.pending.erase conn,
                    running := client :: s.running, registered := client :: s.registered }
    else none
  | Action.closeSet =>
    match s.closePc with
    | ClosePc.idle =>
      some { s with h := { s.h with closing := true },
                    trace := s.trace ++ [Event.closingSet true],
                    closeTrace := [Event.closingSet true], closePc := ClosePc.flagSet }
    | _ => none
  | Action.rangeStart =>
    match s.closePc with
    | ClosePc.flagSet =>
      some { s with todo := s.h.activeConn, atStart := s.h.activeConn,
                    closePc := ClosePc.sweeping }
    | _ => none
  | Action.rangeStep c timedOut =>
    match s.closePc with
    | ClosePc.sweeping =>
      if c ∈ s.todo then
        if c ∈ s.h.activeConn then
          some { s with todo := s.todo.filter (fun x => decide (x ≠ c)),
                        trace := s.trace ++ c.Close timedOut,
                        closeTrace := s.closeTrace ++ c.Close timedOut,
                        visited := s.visited ++ [(c, timedOut)], swept := c :: s.swept }
        else some { s with todo := s.todo.filter (fun x => decide (x ≠ c)) }
      else none
    | _ => none
  | Action.closeEnd =>
    match s.closePc with
    | ClosePc.sweeping =>
      if s.todo = [] then some { s with closePc := ClosePc.returned, closeRet := some none }
      else none
    | _ => none

/-- Run a sequence of steps. -/
def Sys.run (s : Sys) : List Action → Option Sys
  | [] => some s
  | a :: as =>
    match s.step a with
    | some s1 => Sys.run s1 as
    | none => none

/-- What holds of the shared handler in every state it can reach: the active
set is the registered clients that have not seen end-of-stream, and clients are
allocated at fresh addresses. -/
def Sys.Inv (s : Sys) : Prop :=
  (∀ c, c ∈ s.h.activeConn ↔ c ∈ s.registered ∧ c ∉ s.sawEOF) ∧
  (∀ c ∈ s.registered, c.ptr < s.nextPtr) ∧
  (∀ c ∈ s.running, c ∈ s.registered) ∧
  (∀ c ∈ s.sawEOF, c ∈ s.registered) ∧
  s.h.activeConn.Nodup

/-- What holds of the call of `Close` that runs alongside the calls of `Handle`:
the flag is set before anything else, the events of the call are the flag and
then one bounded wait followed by one close for each key the callback ran on,
no key is visited twice, and a key fixed at the start of `Range` is still to
reach, or visited, or deleted after its call of `Handle` saw end-of-stream. -/
def Sys.SweepInv (s : Sys) : Prop :=
  (s.closePc ≠ ClosePc.idle → s.h.closing = true) ∧
  (s.closePc = ClosePc.idle → s.closeTrace = []) ∧
  (s.closePc ≠ ClosePc.idle → s.closeTrace = Event.closingSet true ::
    s.visited.flatMap
      (fun v => [Event.waitWithTimeout v.1 10000 v.2, Event.connClose v.1.Conn])) ∧
  (s.visited.map Prod.fst).Nodup ∧
  (∀ c ∈ s.todo, c ∉ s.visited.map Prod.fst) ∧
  (∀ c ∈ s.atStart, c ∈ s.todo ∨ c ∈ s.visited.map Prod.fst ∨ c ∈ s.sawEOF) ∧
  (∀ v ∈ s.visited, v.1 ∈ s.atStart) ∧
  (∀ c ∈ s.todo, c ∈ s.atStart) ∧
  (∀ c ∈ s.atStart, c ∈ s.registered) ∧
  (s.closePc = ClosePc.idle ∨ s.closePc = ClosePc.flagSet →
    s.todo = [] ∧ s.visited = [] ∧ s.atStart = []) ∧
  (s.closePc = ClosePc.returned → s.todo = [] ∧ s.closeRet = some none)

/-! ## server.go : data model

`listener.Accept()` is driven by the environment: any result may come back at
any time.  `handler` is any implementation of `tcp.Handler`; only the calls made
to it are recorded.  The three kinds of goroutine of `ListenAndServe` (the caller,
the shutdown watcher, one worker per connection) each advance one statement per
step, and steps of different goroutines interleave freely.  `ClientCounter` is a
package-level `int` updated without synchronisation, so `ClientCounter++` and
`ClientCounter--` are each two steps, the read of the variable and the write of
the new value; the `int` is taken as 64 bits wide. -/

/-- An error returned by `listener.Accept()`: whether it implements `net.Error`
and what its `Timeout()` method answers. -/
structure AcceptErr where
  code : Nat
  isNetError : Bool
  timeout : Bool
  deriving DecidableEq, Repr

/-- The test `ne, ok := err.(net.Error); ok && ne.Timeout()` of line 55. -/
def AcceptErr.isTimeout (e : AcceptErr) : Bool := e.isNetError && e.timeout

/-- What `listener.Accept()` returns. -/
inductive AcceptResult
  | conn (c : Nat)
  | err (e : AcceptErr)
  deriving DecidableEq, Repr

/-- An accept result that ends the loop: an error that is not of the timeout
class. -/
def AcceptResult.isFatal : AcceptResult → Bool
  | AcceptResult.conn _ => false
  | AcceptResult.err e => !e.isTimeout

/-- What the goroutine running the accept loop does, in program order. -/
inductive MainEvent
  | accept (r : AcceptResult)
  | sleep (ms : Nat)
  | sendErr (e : AcceptErr)
  | counterInc
  | wgAdd
  | spawn (conn : Nat)
  deriving DecidableEq, Repr

/-- The outcome of the accept loop on a finite sequence of accept results. -/
structure LoopResult where
  events : List MainEvent
  ended : Bool
  unread : List AcceptResult
  deriving DecidableEq, Repr

/-- The `for` loop of `ListenAndServe` (lines 50-75) run against the sequence of
results that successive calls of `Accept` return.  `ended` is true when the loop
is left through `break`; it is false when the results are used up and the loop
is blocked in `Accept`. -/
def acceptLoop : List AcceptResult → LoopResult
  | [] => ⟨[], false, []⟩
  | AcceptResult.conn c :: rs =>
    let res := acceptLoop rs
    { res with events := MainEvent.accept (AcceptResult.conn c) :: MainEvent.counterInc ::
        MainEvent.wgAdd :: MainEvent.spawn c :: res.events }
  | AcceptResult.err e :: rs =>
    if e.isTimeout then
      let res := acceptLoop rs
      { res with events := MainEvent.accept (AcceptResult.err e) :: MainEvent.sleep 5 ::
          res.events }
    else ⟨[MainEvent.accept (AcceptResult.err e), MainEvent.sendErr e], true, rs⟩

/-- The connections handed to a worker. -/
def spawnsOf : List MainEvent → List Nat
  | [] => []
  | MainEvent.spawn c :: es => c :: spawnsOf es
  | _ :: es => spawnsOf es

/-- The errors sent on `errCh`. -/
def sendsOf : List MainEvent → List AcceptErr
  | [] => []
  | MainEvent.sendErr e :: es => e :: sendsOf es
  | _ :: es => sendsOf es

/-- The results of the calls of `Accept` recorded in a trace, in order. -/
def acceptsOf : List MainEvent → List AcceptResult
  | [] => []
  | MainEvent.accept r :: es => r :: acceptsOf es
  | _ :: es => acceptsOf es

/-- An accept result that is an error. -/
def AcceptResult.isErr : AcceptResult → Bool
  | AcceptResult.conn _ => false
  | AcceptResult.err _ => true

/-- The connections among a sequence of accept results. -/
def connsOf : List AcceptResult → List Nat
  | [] => []
  | AcceptResult.conn c :: rs => c :: connsOf rs
  | _ :: rs => connsOf rs

/-- Where the goroutine that called `ListenAndServe` stands: the statement it
executes next. -/
inductive MainPc
  | accept
  | sleep
  | sendErr (e : AcceptErr)
  | counterLoad (c : Nat)
  | counterStore (c : Nat) (v : Int)
  | wgAdd (c : Nat)
  | spawn (c : Nat)
  | wgWait
  | closeErrCh
  | returned
  deriving DecidableEq, Repr

/-- Where the shutdown watcher (lines 36-46) stands. -/
inductive WatcherPc
  | select
  | closeListener
  | closeHandler
  | inHandlerClose
  | exited
  | panicked
  deriving DecidableEq, Repr

/-- Where a connection worker (lines 68-74) stands. -/
inductive WorkerPc
  | start
  | inHandle
  | wgDone
  | counterLoad
  | counterStore (v : Int)
  | exited
  deriving DecidableEq, Repr

/-- The state of one execution of `ListenAndServe`.  The fields from
`listenerCloses` on record what has happened and are never read by a step:
counts of calls, the results `Accept` has returned and the errors sent on
`errCh`, both in order. -/
structure Server where
  main : MainPc
  watcher : WatcherPc
  workers : List (Nat × WorkerPc)
  errCh : List AcceptErr
  errChClosed : Bool
  waitDone : Nat
  ClientCounter : Int
  listenerCloses : Nat
  handlerCloses : Nat
  handlerCloseReturns : Nat
  errSends : Nat
  accepted : List AcceptResult
  sentErrs : List AcceptErr
  deriving DecidableEq, Repr

/-- A step of one goroutine, or of the environment. -/
inductive SAction
  | accept (r : AcceptResult)
  | main
  | signal
  | recvErr
  | watcher
  | worker (i : Nat)
  deriving DecidableEq, Repr

/-- The state when `ListenAndServe` is called with `ClientCounter = cc`: `errCh`
is made with capacity 1 and the watcher is started. -/
def Server.init (cc : Int) : Server :=
  ⟨MainPc.accept, WatcherPc.select, [], [], false, 0, cc, 0, 0, 0, 0, [], []⟩

/-- The value of a Go `int` of 64 bits after an arithmetic result `x`. -/
def wrapInt (x : Int) : Int :=
  (x + 9223372036854775808) % 18446744073709551616 - 9223372036854775808

/-- A worker that has not yet called `waitDone.Done()`. -/
def WorkerPc.counted : WorkerPc → Bool
  | WorkerPc.start => true
  | WorkerPc.inHandle => true
  | WorkerPc.wgDone => true
  | _ => false

/-- A worker whose call `handler.Handle(ctx, conn)` has returned. -/
def WorkerPc.handleReturned : WorkerPc → Bool
  | WorkerPc.start => false
  | WorkerPc.inHandle => false
  | _ => true

/-! ## server.go : steps -/

/-- A statement of the calling goroutine other than `Accept`. -/
def Server.mainStep (s : Server) : Option Server :=
  match s.main with
  | MainPc.sleep => some { s with main := MainPc.accept }
  | MainPc.sendErr e =>
    if s.errCh.length < 1 then
      some { s with errCh := s.errCh ++ [e], errSends := s.errSends + 1,
                    sentErrs := s.sentErrs ++ [e], main := MainPc.wgWait }
    else none
  | MainPc.counterLoad c => some { s with main := MainPc.counterStore c s.ClientCounter }
  | MainPc.counterStore c v =>
    some { s with ClientCounter := wrapInt (v + 1), main := MainPc.wgAdd c }
  | MainPc.wgAdd c => some { s with waitDone := s.waitDone + 1, main := MainPc.spawn c }
  | MainPc.spawn c =>
    some { s with workers := s.workers ++ [(c, WorkerPc.start)], main := MainPc.accept }
  | MainPc.wgWait => if s.waitDone = 0 then some { s with main := MainPc.closeErrCh } else none
  | MainPc.closeErrCh => some { s with errChClosed := true, main := MainPc.returned }
  | MainPc.accept => none
  | MainPc.returned => none

/-- The return of `listener.Accept()` with result `r` (lines 52-62). -/
def Server.acceptStep (s : Server) (r : AcceptResult) : Option Server :=
  match s.main with
  | MainPc.accept =>
    match r with
    | AcceptResult.conn c =>
      some { s with accepted := s.accepted ++ [r], main := MainPc.counterLoad c }
    | AcceptResult.err e =>
      if e.isTimeout then some { s with accepted := s.accepted ++ [r], main := MainPc.sleep }
      else some { s with accepted := s.accepted ++ [r], main := MainPc.sendErr e }
  | _ => none

/-- A value offered on `closeChan`: taken by the watcher when it is in its
`select`, otherwise without effect (the sender stays blocked). -/
def Server.signalStep (s : Server) : Option Server :=
  match s.watcher with
  | WatcherPc.select => some { s with watcher := WatcherPc.closeListener }
  | _ => some s

/-- The watcher receives from `errCh`: a buffered error, or, on a closed and
empty channel, a nil error whose `Error()` call panics. -/
def Server.recvErrStep (s : Server) : Option Server :=
  match s.watcher with
  | WatcherPc.select =>
    match s.errCh with
    | _ :: rest => some { s with errCh := rest, watcher := WatcherPc.closeListener }
    | [] => if s.errChClosed then some { s with watcher := WatcherPc.panicked } else none
  | _ => none

/-- A statement of the watcher after its `select` (lines 43-45). -/
def Server.watcherStep (s : Server) : Option Server :=
  match s.watcher with
  | WatcherPc.closeListener =>
    some { s with listenerCloses := s.listenerCloses + 1, watcher := WatcherPc.closeHandler }
  | WatcherPc.closeHandler =>
    some { s with handlerCloses := s.handlerCloses + 1, watcher := WatcherPc.inHandlerClose }
  | WatcherPc.inHandlerClose =>
    some { s with handlerCloseReturns := s.handlerCloseReturns + 1, watcher := WatcherPc.exited }
  | _ => none

/-- A statement of worker `i` (lines 68-74): the call of `Handle`, its return,
then the deferred `waitDone.Done()` and the read and the write of
`ClientCounter--`. -/
def Server.workerStep (s : Server) (i : Nat) : Option Server :=
  match s.workers[i]? with
  | some (c, WorkerPc.start) => some { s with workers := s.workers.set i (c, WorkerPc.inHandle) }
  | some (c, WorkerPc.inHandle) => some { s with workers := s.workers.set i (c, WorkerPc.wgDone) }
  | some (c, WorkerPc.wgDone) =>
    some { s with workers := s.workers.set i (c, WorkerPc.counterLoad),
                  waitDone := s.waitDone - 1 }
  | some (c, WorkerPc.counterLoad) =>
    some { s with workers := s.workers.set i (c, WorkerPc.counterStore s.ClientCounter) }
  | some (c, WorkerPc.counterStore v) =>
    some { s with workers := s.workers.set i (c, WorkerPc.exited),
                  ClientCounter := wrapInt (v - 1) }
  | _ => none

/-- One step of the execution. -/
def Server.step (s : Server) : SAction → Option Server
  | SAction.accept r => s.acceptStep r
  | SAction.main => s.mainStep
  | SAction.signal => s.signalStep
  | SAction.recvErr => s.recvErrStep
  | SAction.watcher => s.watcherStep
  | SAction.worker i => s.workerStep i

/-- Run a schedule. -/
def Server.run (s : Server) : List SAction → Option Server
  | [] => some s
  | a :: as =>
    match s.step a with
    | some s1 => Server.run s1 as
    | none => none

/-! ## server.go : what holds in every reachable state -/

/-- Calls of `listener.Close()` made by a watcher standing at a given point. -/
def WatcherPc.listenerClosed : WatcherPc → Nat
  | WatcherPc.closeHandler => 1
  | WatcherPc.inHandlerClose => 1
  | WatcherPc.exited => 1
  | _ => 0

/-- Calls of `handler.Close()` made by a watcher standing at a given point. -/
def WatcherPc.handlerCalled : WatcherPc → Nat
  | WatcherPc.inHandlerClose => 1
  | WatcherPc.exited => 1
  | _ => 0

/-- Returns of `handler.Close()` seen by a watcher standing at a given point. -/
def WatcherPc.handlerReturned : WatcherPc → Nat
  | WatcherPc.exited => 1
  | _ => 0

/-- The `waitDone.Add(1)` made for a worker that is not started yet. -/
def MainPc.pendingAdd : MainPc → Nat
  | MainPc.spawn _ => 1
  | _ => 0

/-- The connection accepted and not yet handed to a worker. -/
def MainPc.pendingConn : MainPc → List Nat
  | MainPc.counterLoad c => [c]
  | MainPc.counterStore c _ => [c]
  | MainPc.wgAdd c => [c]
  | MainPc.spawn c => [c]
  | _ => []

/-- The caller is inside the accept loop and has not received a fatal error. -/
def MainPc.inLoop : MainPc → Bool
  | MainPc.accept => true
  | MainPc.sleep => true
  | MainPc.counterLoad _ => true
  | MainPc.counterStore _ _ => true
  | MainPc.wgAdd _ => true
  | MainPc.spawn _ => true
  | _ => false

/-- Sends on `errCh` made by a caller standing at a given point. -/
def MainPc.sent : MainPc → Nat
  | MainPc.wgWait => 1
  | MainPc.closeErrCh => 1
  | MainPc.returned => 1
  | _ => 0

/-- The invariant of an execution of `ListenAndServe`: the calls made by the
watcher, the wait group, and the error channel. -/
def Server.Inv (s : Server) : Prop :=
  s.listenerCloses = s.watcher.listenerClosed ∧
  s.handlerCloses = s.watcher.handlerCalled ∧
  s.handlerCloseReturns = s.watcher.handlerReturned ∧
  s.waitDone = s.workers.countP (fun w => w.2.counted) + s.main.pendingAdd ∧
  s.errSends = s.main.sent ∧
  s.errCh.length ≤ s.errSends ∧
  (s.errChClosed = true ↔ s.main = MainPc.returned) ∧
  (s.watcher = WatcherPc.select → s.errCh.length = s.errSends) ∧
  s.watcher ≠ WatcherPc.panicked

/-- Once `waitDone.Wait()` has returned, the wait group stays at zero. -/
def Server.Joined (s : Server) : Prop :=
  (s.main = MainPc.closeErrCh ∨ s.main = MainPc.returned) → s.waitDone = 0

/-- The invariant of the accept loop: while the caller is in the loop no fatal
result has come back and nothing was sent; the caller about to send `e` has just
received `e`, which is not of the timeout class; the caller past the loop has sent
exactly that error; a watcher still in its `select` has every sent error in the
channel; and the workers are the connections accepted, in order. -/
def Server.LoopInv (s : Server) : Prop :=
  (s.main.inLoop = true → (∀ r ∈ s.accepted, r.isFatal = false) ∧ s.sentErrs = []) ∧
  (∀ e, s.main = MainPc.sendErr e →
    ∃ pre, s.accepted = pre ++ [AcceptResult.err e] ∧ (∀ r ∈ pre, r.isFatal = false) ∧
      e.isTimeout = false ∧ s.sentErrs = []) ∧
  (s.main.sent = 1 →
    ∃ pre e, s.accepted = pre ++ [AcceptResult.err e] ∧ (∀ r ∈ pre, r.isFatal = false) ∧
      e.isTimeout = false ∧ s.sentErrs = [e]) ∧
  (s.watcher = WatcherPc.select → s.errCh = s.sentErrs) ∧
  s.workers.map Prod.fst ++ s.main.pendingConn = connsOf s.accepted

/-! ## echo.go : reading lines -/

theorem splitDelim_some (d : Nat) :
    ∀ (buf l rest : List Nat), splitDelim d buf = some (l, rest) →
      buf = l ++ rest ∧ rest.length < buf.length ∧ buf.count d = rest.count d + 1 := by
  intro buf
  induction buf with
  | nil => intro l rest hs; simp [splitDelim] at hs
  | cons b bs ih =>
    intro l rest hs
    unfold splitDelim at hs
    by_cases hb : b = d
    · simp only [hb, if_true, Option.some.injEq, Prod.mk.injEq] at hs
      obtain ⟨rfl, rfl⟩ := hs
      subst hb
      simp
    · simp only [hb, if_false] at hs
      cases hrec : splitDelim d bs with
      | none => simp [hrec] at hs
      | some p =>
        obtain ⟨l1, rest1⟩ := p
        simp only [hrec, Option.some.injEq, Prod.mk.injEq] at hs
        obtain ⟨rfl, rfl⟩ := hs
        obtain ⟨h1, h2, h3⟩ := ih l1 rest1 hrec
        refine ⟨by simp [h1], by simp; omega, ?_⟩
        rw [List.count_cons_of_ne (Ne.symm hb)]
        exact h3

theorem splitDelim_none (d : Nat) :
    ∀ (buf : List Nat), splitDelim d buf = none → buf.count d = 0 := by
  intro buf
  induction buf with
  | nil => intro _; rfl
  | cons b bs ih =>
    intro hs
    unfold splitDelim at hs
    by_cases hb : b = d
    · simp [hb] at hs
    · simp only [hb, if_false] at hs
      cases hrec : splitDelim d bs with
      | none =>
        rw [List.count_cons_of_ne (Ne.symm hb)]
        exact ih hrec
      | some p => simp [hrec] at hs

theorem splitDelim_line (d : Nat) (tl : List Nat) :
    ∀ (body : List Nat), d ∉ body →
      splitDelim d (body ++ d :: tl) = some (body ++ [d], tl) := by
  intro body
  induction body with
  | nil => intro _; simp [splitDelim]
  | cons b bs ih =>
    intro hd
    have hb : b ≠ d := fun e => hd (by simp [e])
    have hbs : d ∉ bs := fun e => hd (by simp [e])
    have := ih hbs
    simp [splitDelim, hb, this]

/-! ## echo.go : the read loop -/

theorem writesOf_append (xs ys : List Event) :
    writesOf (xs ++ ys) = writesOf xs ++ writesOf ys := by
  induction xs with
  | nil => rfl
  | cons e es ih => cases e <;> simp [writesOf, ih]

theorem handleLoop_lines (client : EchoClient) (writeOk : Nat → Bool) :
    ∀ (lines : List (List Nat)), (∀ l ∈ lines, ∃ body, l = body ++ [10] ∧ 10 ∉ body) →
      ∀ (fuel : Nat) (h : EchoHandler) (n : Nat), lines.flatten.length < fuel →
        ∃ res, EchoHandler.handleLoop client writeOk fuel h ⟨lines.flatten, ReadErr.EOF⟩ 0 n
            = some res ∧
          writesOf res.events = lines.map (fun l => (client.Conn, l)) ∧
          res.h = { h with activeConn := Delete h.activeConn client } ∧
          res.events.getLast? = some (Event.delete client) := by
  intro lines
  induction lines with
  | nil =>
    intro _ fuel h n hf
    cases fuel with
    | zero => simp at hf
    | succ f =>
      simp [EchoHandler.handleLoop, Reader.ReadString, splitDelim, EchoHandler.handleIter,
        writesOf]
  | cons l ls ih =>
    intro hl fuel h n hf
    obtain ⟨body, rfl, hbody⟩ := hl l (by simp)
    have hls : ∀ l ∈ ls, ∃ body, l = body ++ [10] ∧ 10 ∉ body :=
      fun x hx => hl x (by simp [hx])
    cases fuel with
    | zero => simp at hf
    | succ f =>
      have hsplit : splitDelim 10 (body ++ 10 :: ls.flatten) = some (body ++ [10], ls.flatten) :=
        splitDelim_line 10 ls.flatten body hbody
      have hf2 : ls.flatten.length < f := by
        simp only [List.flatten_cons, List.length_append, List.length_cons,
          List.length_nil] at hf
        omega
      obtain ⟨res, hres, hw, hh, hlast⟩ := ih hls f h (n + 1) hf2
      refine ⟨{ res with events := [Event.readString client.Conn 0, Event.waitingAdd client 1,
        Event.write client.Conn (body ++ [10]) (writeOk n) 1, Event.waitingDone client 0]
        ++ res.events }, ?_, ?_, ?_, ?_⟩
      · simp only [EchoHandler.handleLoop, Reader.ReadString, List.flatten_cons,
          List.append_assoc, List.singleton_append, hsplit, EchoHandler.handleIter,
          if_true, Nat.add_sub_cancel, hres]
      · simp [writesOf_append, writesOf, hw]
      · exact hh
      · simp only [List.getLast?_append, hlast]
        rfl


theorem writeOutcomes_append (xs ys : List Event) :
    writeOutcomes (xs ++ ys) = writeOutcomes xs ++ writeOutcomes ys := by
  induction xs with
  | nil => rfl
  | cons e es ih => cases e <;> simp [writeOutcomes, ih]

/-- Every property of the drain token along the read loop, for any stream and
any write outcomes, once the fuel exceeds the number of bytes left. -/
theorem handleLoop_token (client : EchoClient) (writeOk : Nat → Bool) :
    ∀ (fuel : Nat) (h : EchoHandler) (r : Reader) (n : Nat), r.buf.length < fuel →
      ∃ res, EchoHandler.handleLoop client writeOk fuel h r 0 n = some res ∧
        res.waiting = 0 ∧
        (∀ c w, Event.readString c w ∈ res.events → w = 0) ∧
        (∀ c w, Event.waitingAdd c w ∈ res.events → w = 1) ∧
        (∀ c w, Event.waitingDone c w ∈ res.events → w = 0) ∧
        (∀ pre post c b ok w, res.events = pre ++ Event.write c b ok w :: post →
          w = 1 ∧ (∃ pre2, pre = pre2 ++ [Event.waitingAdd client 1]) ∧
          (∃ post2, post = Event.waitingDone client 0 :: post2)) ∧
        res.events.countP Event.isAdd = r.buf.count 10 ∧
        res.events.countP Event.isDone = r.buf.count 10 ∧
        res.events.countP Event.isWrite = r.buf.count 10 ∧
        writeOutcomes res.events = (List.range (r.buf.count 10)).map (fun k => writeOk (n + k)) := by
  intro fuel
  induction fuel with
  | zero => intro h r n hf; simp at hf
  | succ f ih =>
    intro h r n hf
    cases hsplit : splitDelim 10 r.buf with
    | none =>
      have hcount := splitDelim_none 10 r.buf hsplit
      cases hend : r.ending with
      | EOF =>
        refine ⟨⟨{ h with activeConn := Delete h.activeConn client },
          [Event.readString client.Conn 0, Event.delete client], 0⟩, ?_, ?_⟩
        · simp [EchoHandler.handleLoop, Reader.ReadString, hsplit, hend,
            EchoHandler.handleIter]
        · refine ⟨rfl, ?_, ?_, ?_, ?_, ?_, ?_, ?_, ?_⟩
          · intro c w hm; simp at hm; exact hm.2
          · intro c w hm; simp at hm
          · intro c w hm; simp at hm
          · intro pre post c b ok w heq
            rcases pre with _ | ⟨p1, _ | ⟨p2, pre3⟩⟩ <;> simp at heq
          · simp [hcount, Event.isAdd]
          · simp [hcount, Event.isDone]
          · simp [hcount, Event.isWrite]
          · simp [hcount, writeOutcomes]
      | other code =>
        refine ⟨⟨h, [Event.readString client.Conn 0], 0⟩, ?_, ?_⟩
        · simp [EchoHandler.handleLoop, Reader.ReadString, hsplit, hend,
            EchoHandler.handleIter]
        · refine ⟨rfl, ?_, ?_, ?_, ?_, ?_, ?_, ?_, ?_⟩
          · intro c w hm; simp at hm; exact hm.2
          · intro c w hm; simp at hm
          · intro c w hm; simp at hm
          · intro pre post c b ok w heq
            rcases pre with _ | ⟨p1, pre2⟩ <;> simp at heq
          · simp [hcount, Event.isAdd]
          · simp [hcount, Event.isDone]
          · simp [hcount, Event.isWrite]
          · simp [hcount, writeOutcomes]
    | some p =>
      obtain ⟨l, rest⟩ := p
      obtain ⟨_, hlen, hcount⟩ := splitDelim_some 10 r.buf l rest hsplit
      have hf2 : rest.length < f := by omega
      obtain ⟨res, hres, hw0, hrd, hadd, hdone, hbr, hca, hcd, hcw, hout⟩ :=
        ih h ⟨rest, r.ending⟩ (n + 1) hf2
      refine ⟨{ res with events := [Event.readString client.Conn 0, Event.waitingAdd client 1,
        Event.write client.Conn l (writeOk n) 1, Event.waitingDone client 0]
        ++ res.events }, ?_, ?_⟩
      · simp only [EchoHandler.handleLoop, Reader.ReadString, hsplit, EchoHandler.handleIter,
          if_true, Nat.add_sub_cancel, hres]
      · refine ⟨hw0, ?_, ?_, ?_, ?_, ?_, ?_, ?_, ?_⟩
        · intro c w hm
          simp only [List.mem_append, List.mem_cons, List.mem_singleton] at hm
          rcases hm with hm | hm
          · simp at hm; exact hm.2
          · exact hrd c w hm
        · intro c w hm
          simp only [List.mem_append] at hm
          rcases hm with hm | hm
          · simp at hm; exact hm.2
          · exact hadd c w hm
        · intro c w hm
          simp only [List.mem_append] at hm
          rcases hm with hm | hm
          · simp at hm; exact hm.2
          · exact hdone c w hm
        · intro pre post c b ok w heq
          rcases pre with _ | ⟨p1, _ | ⟨p2, _ | ⟨p3, _ | ⟨p4, pre5⟩⟩⟩⟩
          · simp at heq
          · simp at heq
          · simp only [List.cons_append, List.nil_append, List.cons.injEq,
              Event.write.injEq] at heq
            obtain ⟨-, hp2, ⟨-, -, -, hw⟩, hpost⟩ := heq
            exact ⟨hw.symm, ⟨[p1], by simp [← hp2]⟩, ⟨res.events, hpost.symm⟩⟩
          · simp at heq
          · simp only [List.cons_append, List.cons.injEq, List.nil_append] at heq
            obtain ⟨-, -, -, -, hrest⟩ := heq
            obtain ⟨hw, ⟨pre2, hp⟩, hpost⟩ := hbr pre5 post c b ok w hrest
            exact ⟨hw, ⟨p1 :: p2 :: p3 :: p4 :: pre2, by simp [hp]⟩, hpost⟩
        · simp [List.countP_append, hca, hcount, Event.isAdd, Nat.add_comm]
        · simp [List.countP_append, hcd, hcount, Event.isDone, Nat.add_comm]
        · simp [List.countP_append, hcw, hcount, Event.isWrite, Nat.add_comm]
        · change writeOk n :: writeOutcomes res.events = _
          rw [hout, hcount, List.range_succ_eq_map, List.map_cons, List.map_map]
          refine congrArg₂ _ rfl (List.map_congr_left ?_)
          intro k _
          simp only [Function.comp, Nat.succ_eq_add_one]
          rw [Nat.add_assoc, Nat.add_comm 1 k]

/-! ## echo.go : the shared handler -/

theorem mem_Store (m : List EchoClient) (c x : EchoClient) :
    x ∈ Store m c ↔ x ∈ m ∨ x = c := by
  unfold Store
  by_cases hc : c ∈ m
  · simp only [hc, if_true]
    constructor
    · exact Or.inl
    · rintro (hx | rfl)
      · exact hx
      · exact hc
  · simp [hc]

theorem mem_Delete (m : List EchoClient) (c x : EchoClient) :
    x ∈ Delete m c ↔ x ∈ m ∧ x ≠ c := by
  simp [Delete]

theorem nodup_Store (m : List EchoClient) (c : EchoClient) (hm : m.Nodup) :
    (Store m c).Nodup := by
  unfold Store
  by_cases hc : c ∈ m
  · simpa [hc] using hm
  · simp only [hc, if_false]
    exact List.Nodup.append hm (List.nodup_singleton c) (by simpa using hc)

theorem nodup_Delete (m : List EchoClient) (c : EchoClient) (hm : m.Nodup) :
    (Delete m c).Nodup :=
  List.Nodup.filter _ hm

theorem handleIter_closing (h : EchoHandler) (c : EchoClient) (w : Nat)
    (rd : List Nat × Option ReadErr) (wok : Bool) :
    (h.handleIter c w rd wok).h.closing = h.closing := by
  obtain ⟨msg, e⟩ := rd
  cases e with
  | none => rfl
  | some e => cases e <;> rfl

theorem sys_step_closing (s s1 : Sys) (a : Action) (hs : s.step a = some s1)
    (hc : s.h.closing = true) : s1.h.closing = true := by
  cases a with
  | enter conn =>
    simp only [Sys.step, EchoHandler.handleEnter, hc, if_true, Option.some.injEq] at hs
    rw [← hs]
    exact hc
  | iter c rd wok =>
    simp only [Sys.step] at hs
    split at hs
    · simp only [Option.some.injEq] at hs
      rw [← hs]
      simpa [handleIter_closing] using hc
    · simp at hs
  | close t =>
    simp only [Sys.step, EchoHandler.Close, Option.some.injEq] at hs
    rw [← hs]
  | check conn =>
    simp only [Sys.step, hc, if_true, Option.some.injEq] at hs
    rw [← hs]
    exact hc
  | store conn =>
    simp only [Sys.step] at hs
    split at hs
    · simp only [Option.some.injEq] at hs
      rw [← hs]
      exact hc
    · simp at hs
  | closeSet =>
    simp only [Sys.step] at hs
    cases hp : s.closePc <;> simp only [hp] at hs <;> try (simp at hs; done)
    simp only [Option.some.injEq] at hs
    rw [← hs]
  | rangeStart =>
    simp only [Sys.step] at hs
    cases hp : s.closePc <;> simp only [hp] at hs <;> try (simp at hs; done)
    simp only [Option.some.injEq] at hs
    rw [← hs]
    exact hc
  | rangeStep c t =>
    simp only [Sys.step] at hs
    cases hp : s.closePc <;> simp only [hp] at hs <;> try (simp at hs; done)
    split at hs
    · split at hs <;> simp only [Option.some.injEq] at hs <;> rw [← hs] <;> exact hc
    · simp at hs
  | closeEnd =>
    simp only [Sys.step] at hs
    cases hp : s.closePc <;> simp only [hp] at hs <;> try (simp at hs; done)
    split at hs
    · simp only [Option.some.injEq] at hs
      rw [← hs]
      exact hc
    · simp at hs

theorem sys_run_closing (acts : List Action) :
    ∀ (s s1 : Sys), Sys.run s acts = some s1 → s.h.closing = true → s1.h.closing = true := by
  induction acts with
  | nil =>
    intro s s1 hr hc
    simp only [Sys.run, Option.some.injEq] at hr
    rw [← hr]
    exact hc
  | cons a as ih =>
    intro s s1 hr hc
    simp only [Sys.run] at hr
    cases hstep : s.step a with
    | none => simp [hstep] at hr
    | some s2 =>
      simp only [hstep] at hr
      exact ih s2 s1 hr (sys_step_closing s s2 a hstep hc)

theorem sys_init_inv : Sys.Inv Sys.init := by
  refine ⟨?_, ?_, ?_, ?_, ?_⟩ <;> simp [Sys.init, MakeEchoHandler]

theorem sys_step_inv (s s1 : Sys) (a : Action) (hs : s.step a = some s1) (hi : s.Inv) :
    s1.Inv := by
  obtain ⟨hact, hfresh, hrun, heof, hnd⟩ := hi
  cases a with
  | enter conn =>
    cases hc : s.h.closing with
    | true =>
      simp only [Sys.step, EchoHandler.handleEnter, hc, if_true, Option.some.injEq] at hs
      rw [← hs]
      exact ⟨hact, hfresh, hrun, heof, hnd⟩
    | false =>
      simp only [Sys.step, EchoHandler.handleEnter, hc, Bool.false_eq_true, if_false,
        Option.some.injEq] at hs
      rw [← hs]
      have hnew : (⟨s.nextPtr, conn⟩ : EchoClient) ∉ s.registered := by
        intro hm
        have := hfresh _ hm
        simp at this
      refine ⟨?_, ?_, ?_, ?_, ?_⟩
      · intro c
        simp only [mem_Store, List.mem_cons, hact c]
        constructor
        · rintro (⟨h1, h2⟩ | rfl)
          · exact ⟨Or.inr h1, h2⟩
          · exact ⟨Or.inl rfl, fun h3 => hnew (heof _ h3)⟩
        · rintro ⟨h1 | h1, h2⟩
          · exact Or.inr h1
          · exact Or.inl ⟨h1, h2⟩
      · intro c hm
        simp only [List.mem_cons] at hm
        rcases hm with rfl | hm
        · simp
        · exact Nat.lt_succ_of_lt (hfresh c hm)
      · intro c hm
        simp only [List.mem_cons] at hm ⊢
        rcases hm with rfl | hm
        · exact Or.inl rfl
        · exact Or.inr (hrun c hm)
      · intro c hm
        exact List.mem_cons_of_mem _ (heof c hm)
      · exact nodup_Store _ _ hnd
  | iter c rd wok =>
    simp only [Sys.step] at hs
    by_cases hmem : c ∈ s.running
    · simp only [hmem, if_true, Option.some.injEq] at hs
      rw [← hs]
      obtain ⟨msg, e⟩ := rd
      have hsub : ∀ (b : Bool) x, x ∈ (if b then s.running
          else s.running.filter (fun y => decide (y ≠ c))) → x ∈ s.registered := by
        intro b x hx
        cases b with
        | true => exact hrun x hx
        | false => exact hrun x (List.mem_of_mem_filter hx)
      cases e with
      | none =>
        exact ⟨by simpa [EchoHandler.handleIter, isEOF] using hact, hfresh,
          fun x hx => hsub (s.h.handleIter c 0 (msg, none) wok).again x hx,
          by simpa [isEOF] using heof,
          by simpa [EchoHandler.handleIter] using hnd⟩
      | some e =>
        cases e with
        | EOF =>
          refine ⟨?_, hfresh,
            fun x hx => hsub (s.h.handleIter c 0 (msg, some ReadErr.EOF) wok).again x hx, ?_, ?_⟩
          · intro x
            simp only [EchoHandler.handleIter, isEOF, if_true, mem_Delete, List.mem_cons,
              hact x, not_or]
            tauto
          · intro x hx
            simp only [isEOF, if_true, List.mem_cons] at hx
            rcases hx with rfl | hx
            · exact hrun _ hmem
            · exact heof x hx
          · exact nodup_Delete _ _ hnd
        | other code =>
          exact ⟨by simpa [EchoHandler.handleIter, isEOF] using hact, hfresh,
            fun x hx => hsub (s.h.handleIter c 0 (msg, some (ReadErr.other code)) wok).again x hx,
            by simpa [isEOF] using heof,
            by simpa [EchoHandler.handleIter] using hnd⟩
    · simp [hmem] at hs
  | close t =>
    simp only [Sys.step, EchoHandler.Close, Option.some.injEq] at hs
    rw [← hs]
    exact ⟨hact, hfresh, hrun, heof, hnd⟩
  | check conn =>
    simp only [Sys.step] at hs
    split at hs <;> simp only [Option.some.injEq] at hs <;> rw [← hs] <;>
      exact ⟨hact, hfresh, hrun, heof, hnd⟩
  | store conn =>
    simp only [Sys.step] at hs
    split at hs
    · simp only [Option.some.injEq] at hs
      rw [← hs]
      have hnew : (⟨s.nextPtr, conn⟩ : EchoClient) ∉ s.registered := by
        intro hm
        have := hfresh _ hm
        simp at this
      refine ⟨?_, ?_, ?_, ?_, ?_⟩
      · intro c
        simp only [mem_Store, List.mem_cons, hact c]
        constructor
        · rintro (⟨h1, h2⟩ | rfl)
          · exact ⟨Or.inr h1, h2⟩
          · exact ⟨Or.inl rfl, fun h3 => hnew (heof _ h3)⟩
        · rintro ⟨h1 | h1, h2⟩
          · exact Or.inr h1
          · exact Or.inl ⟨h1, h2⟩
      · intro c hm
        simp only [List.mem_cons] at hm
        rcases hm with rfl | hm
        · simp
        · exact Nat.lt_succ_of_lt (hfresh c hm)
      · intro c hm
        simp only [List.mem_cons] at hm ⊢
        rcases hm with rfl | hm
        · exact Or.inl rfl
        · exact Or.inr (hrun c hm)
      · intro c hm
        exact List.mem_cons_of_mem _ (heof c hm)
      · exact nodup_Store _ _ hnd
    · simp at hs
  | closeSet =>
    simp only [Sys.step] at hs
    cases hp : s.closePc <;> simp only [hp] at hs <;> try (simp at hs; done)
    simp only [Option.some.injEq] at hs
    rw [← hs]
    exact ⟨hact, hfresh, hrun, heof, hnd⟩
  | rangeStart =>
    simp only [Sys.step] at hs
    cases hp : s.closePc <;> simp only [hp] at hs <;> try (simp at hs; done)
    simp only [Option.some.injEq] at hs
    rw [← hs]
    exact ⟨hact, hfresh, hrun, heof, hnd⟩
  | rangeStep c t =>
    simp only [Sys.step] at hs
    cases hp : s.closePc <;> simp only [hp] at hs <;> try (simp at hs; done)
    split at hs
    · split at hs <;> simp only [Option.some.injEq] at hs <;> rw [← hs] <;>
        exact ⟨hact, hfresh, hrun, heof, hnd⟩
    · simp at hs
  | closeEnd =>
    simp only [Sys.step] at hs
    cases hp : s.closePc <;> simp only [hp] at hs <;> try (simp at hs; done)
    split at hs
    · simp only [Option.some.injEq] at hs
      rw [← hs]
      exact ⟨hact, hfresh, hrun, heof, hnd⟩
    · simp at hs

theorem sys_run_inv (acts : List Action) :
    ∀ (s s1 : Sys), Sys.run s acts = some s1 → s.Inv → s1.Inv := by
  induction acts with
  | nil =>
    intro s s1 hr hi
    simp only [Sys.run, Option.some.injEq] at hr
    rw [← hr]
    exact hi
  | cons a as ih =>
    intro s s1 hr hi
    simp only [Sys.run] at hr
    cases hstep : s.step a with
    | none => simp [hstep] at hr
    | some s2 =>
      simp only [hstep] at hr
      exact ih s2 s1 hr (sys_step_inv s s2 a hstep hi)

/-! ## echo.go : `Close` running alongside `Handle` -/

/-- A step that leaves the call of `Close` where it is, keeps a set flag, and
forgets no registration and no end-of-stream, preserves the sweep invariant. -/
theorem sweepInv_frame (s s1 : Sys) (hi : s.SweepInv)
    (hpc : s1.closePc = s.closePc) (htodo : s1.todo = s.todo)
    (hvis : s1.visited = s.visited) (hat : s1.atStart = s.atStart)
    (hct : s1.closeTrace = s.closeTrace) (hret : s1.closeRet = s.closeRet)
    (hclosing : s.h.closing = true → s1.h.closing = true)
    (hreg : ∀ c ∈ s.registered, c ∈ s1.registered)
    (heof : ∀ c ∈ s.sawEOF, c ∈ s1.sawEOF) : s1.SweepInv := by
  obtain ⟨i1, i2, i3, i4, i5, i6, i7, i8, i9, i10, i11⟩ := hi
  unfold Sys.SweepInv
  rw [hpc, htodo, hvis, hat, hct, hret]
  refine ⟨fun h => hclosing (i1 h), i2, i3, i4, i5, ?_, i7, i8, fun c hc => hreg c (i9 c hc),
    i10, i11⟩
  intro c hc
  rcases i6 c hc with h | h | h
  · exact Or.inl h
  · exact Or.inr (Or.inl h)
  · exact Or.inr (Or.inr (heof c h))

theorem sys_init_sweep : Sys.init.SweepInv := by
  refine ⟨?_, ?_, ?_, ?_, ?_, ?_, ?_, ?_, ?_, ?_, ?_⟩ <;> simp [Sys.init]

theorem sys_step_sweep (s s1 : Sys) (a : Action) (hs : s.step a = some s1)
    (hinv : s.Inv) (hi : s.SweepInv) : s1.SweepInv := by
  cases a with
  | enter conn =>
    cases hc : s.h.closing with
    | true =>
      simp only [Sys.step, EchoHandler.handleEnter, hc, if_true, Option.some.injEq] at hs
      subst hs
      exact sweepInv_frame s _ hi rfl rfl rfl rfl rfl rfl (fun h => h) (fun c h => h)
        (fun c h => h)
    | false =>
      simp only [Sys.step, EchoHandler.handleEnter, hc, Bool.false_eq_true, if_false,
        Option.some.injEq] at hs
      subst hs
      exact sweepInv_frame s _ hi rfl rfl rfl rfl rfl rfl (fun h => by simp [hc] at h)
        (fun c h => List.mem_cons_of_mem _ h) (fun c h => h)
  | iter c rd wok =>
    simp only [Sys.step] at hs
    by_cases hmem : c ∈ s.running
    · simp only [hmem, if_true, Option.some.injEq] at hs
      subst hs
      refine sweepInv_frame s _ hi rfl rfl rfl rfl rfl rfl ?_ (fun c h => h) ?_
      · intro h
        show (s.h.handleIter c 0 rd wok).h.closing = true
        rw [handleIter_closing]
        exact h
      · intro x hx
        show x ∈ (if isEOF rd.2 = true then c :: s.sawEOF else s.sawEOF)
        split
        · exact List.mem_cons_of_mem _ hx
        · exact hx
    · simp [hmem] at hs
  | close t =>
    simp only [Sys.step, EchoHandler.Close, Option.some.injEq] at hs
    subst hs
    exact sweepInv_frame s _ hi rfl rfl rfl rfl rfl rfl (fun _ => rfl) (fun c h => h)
      (fun c h => h)
  | check conn =>
    simp only [Sys.step] at hs
    split at hs <;> simp only [Option.some.injEq] at hs <;> subst hs <;>
      exact sweepInv_frame s _ hi rfl rfl rfl rfl rfl rfl (fun h => h) (fun c h => h)
        (fun c h => h)
  | store conn =>
    simp only [Sys.step] at hs
    split at hs
    · simp only [Option.some.injEq] at hs
      subst hs
      exact sweepInv_frame s _ hi rfl rfl rfl rfl rfl rfl (fun h => h)
        (fun c h => List.mem_cons_of_mem _ h) (fun c h => h)
    · simp at hs
  | closeSet =>
    obtain ⟨i1, i2, i3, i4, i5, i6, i7, i8, i9, i10, i11⟩ := hi
    simp only [Sys.step] at hs
    cases hp : s.closePc <;> simp only [hp] at hs <;> try (simp at hs; done)
    obtain ⟨j1, j2, j3⟩ := i10 (Or.inl hp)
    simp only [Option.some.injEq] at hs
    subst hs
    refine ⟨fun _ => rfl, by intro h; simp at h, ?_, i4, i5, i6, i7, i8, i9,
      fun _ => ⟨j1, j2, j3⟩, by intro h; simp at h⟩
    intro _
    show [Event.closingSet true] = Event.closingSet true :: s.visited.flatMap _
    rw [j2]
    rfl
  | rangeStart =>
    obtain ⟨i1, i2, i3, i4, i5, i6, i7, i8, i9, i10, i11⟩ := hi
    simp only [Sys.step] at hs
    cases hp : s.closePc <;> simp only [hp] at hs <;> try (simp at hs; done)
    obtain ⟨j1, j2, j3⟩ := i10 (Or.inr hp)
    have hne : s.closePc ≠ ClosePc.idle := by rw [hp]; simp
    simp only [Option.some.injEq] at hs
    subst hs
    refine ⟨fun _ => i1 hne, by intro h; simp at h, fun _ => i3 hne, i4, ?_, ?_, ?_, ?_, ?_,
      by intro h; simp at h, by intro h; simp at h⟩
    · intro c _
      show c ∉ s.visited.map Prod.fst
      rw [j2]
      simp
    · intro c hc
      exact Or.inl hc
    · intro v hv
      have hv2 : v ∈ s.visited := hv
      rw [j2] at hv2
      simp at hv2
    · intro c hc
      exact hc
    · intro c hc
      exact ((hinv.1 c).mp hc).1
  | rangeStep c t =>
    obtain ⟨i1, i2, i3, i4, i5, i6, i7, i8, i9, i10, i11⟩ := hi
    simp only [Sys.step] at hs
    cases hp : s.closePc <;> simp only [hp] at hs <;> try (simp at hs; done)
    have hne : s.closePc ≠ ClosePc.idle := by rw [hp]; simp
    by_cases hct : c ∈ s.todo
    · simp only [hct, if_true] at hs
      by_cases hca : c ∈ s.h.activeConn
      · simp only [hca, if_true, Option.some.injEq] at hs
        subst hs
        refine ⟨fun _ => i1 hne, by intro h; simp [hp] at h, ?_, ?_, ?_, ?_, ?_, ?_, i9,
          by intro h; simp [hp] at h, by intro h; simp [hp] at h⟩
        · intro _
          show s.closeTrace ++ c.Close t = Event.closingSet true ::
            (s.visited ++ [(c, t)]).flatMap
              (fun v => [Event.waitWithTimeout v.1 10000 v.2, Event.connClose v.1.Conn])
          rw [i3 hne, List.flatMap_append]
          simp [EchoClient.Close]
        · show ((s.visited ++ [(c, t)]).map Prod.fst).Nodup
          rw [List.map_append]
          refine List.Nodup.append i4 (by simp) ?_
          intro x hx1 hx2
          simp only [List.map_cons, List.map_nil, List.mem_singleton] at hx2
          subst hx2
          exact i5 x hct hx1
        · intro x hx
          have hx2 : x ∈ s.todo.filter (fun y => decide (y ≠ c)) := hx
          simp only [List.mem_filter, decide_eq_true_eq] at hx2
          show x ∉ (s.visited ++ [(c, t)]).map Prod.fst
          simp only [List.map_append, List.map_cons, List.map_nil, List.mem_append,
            List.mem_singleton, not_or]
          exact ⟨i5 x hx2.1, hx2.2⟩
        · intro x hx
          show x ∈ s.todo.filter (fun y => decide (y ≠ c)) ∨
            x ∈ (s.visited ++ [(c, t)]).map Prod.fst ∨ x ∈ s.sawEOF
          rcases i6 x hx with h | h | h
          · by_cases hxc : x = c
            · refine Or.inr (Or.inl ?_)
              simp [hxc]
            · refine Or.inl ?_
              simp [List.mem_filter, h, hxc]
          · refine Or.inr (Or.inl ?_)
            simp only [List.map_append, List.mem_append]
            exact Or.inl h
          · exact Or.inr (Or.inr h)
        · intro v hv
          have hv2 : v ∈ s.visited ++ [(c, t)] := hv
          simp only [List.mem_append, List.mem_singleton] at hv2
          rcases hv2 with h | h
          · exact i7 v h
          · rw [h]
            exact i8 c hct
        · intro x hx
          have hx2 : x ∈ s.todo.filter (fun y => decide (y ≠ c)) := hx
          exact i8 x (List.mem_of_mem_filter hx2)
      · simp only [hca, if_false, Option.some.injEq] at hs
        subst hs
        refine ⟨fun _ => i1 hne, by intro h; simp [hp] at h, fun _ => i3 hne, i4, ?_, ?_, i7,
          ?_, i9, by intro h; simp [hp] at h, by intro h; simp [hp] at h⟩
        · intro x hx
          have hx2 : x ∈ s.todo.filter (fun y => decide (y ≠ c)) := hx
          exact i5 x (List.mem_of_mem_filter hx2)
        · intro x hx
          show x ∈ s.todo.filter (fun y => decide (y ≠ c)) ∨
            x ∈ s.visited.map Prod.fst ∨ x ∈ s.sawEOF
          rcases i6 x hx with h | h | h
          · by_cases hxc : x = c
            · refine Or.inr (Or.inr ?_)
              subst hxc
              by_contra hno
              exact hca ((hinv.1 x).mpr ⟨i9 x hx, hno⟩)
            · refine Or.inl ?_
              simp [List.mem_filter, h, hxc]
          · exact Or.inr (Or.inl h)
          · exact Or.inr (Or.inr h)
        · intro x hx
          have hx2 : x ∈ s.todo.filter (fun y => decide (y ≠ c)) := hx
          exact i8 x (List.mem_of_mem_filter hx2)
    · simp [hct] at hs
  | closeEnd =>
    obtain ⟨i1, i2, i3, i4, i5, i6, i7, i8, i9, i10, i11⟩ := hi
    simp only [Sys.step] at hs
    cases hp : s.closePc <;> simp only [hp] at hs <;> try (simp at hs; done)
    have hne : s.closePc ≠ ClosePc.idle := by rw [hp]; simp
    by_cases ht : s.todo = []
    · rw [if_pos ht] at hs
      simp only [Option.some.injEq] at hs
      subst hs
      exact ⟨fun _ => i1 hne, by intro h; simp at h, fun _ => i3 hne, i4, i5, i6, i7, i8, i9,
        by intro h; simp at h, fun _ => ⟨ht, rfl⟩⟩
    · simp [ht] at hs

theorem sys_run_sweep (acts : List Action) :
    ∀ (s s1 : Sys), Sys.run s acts = some s1 → s.Inv → s.SweepInv → s1.SweepInv := by
  induction acts with
  | nil =>
    intro s s1 hr _ hi
    simp only [Sys.run, Option.some.injEq] at hr
    rw [← hr]
    exact hi
  | cons a as ih =>
    intro s s1 hr hinv hi
    simp only [Sys.run] at hr
    cases hstep : s.step a with
    | none => simp [hstep] at hr
    | some s2 =>
      simp only [hstep] at hr
      exact ih s2 s1 hr (sys_step_inv s s2 a hstep hinv) (sys_step_sweep s s2 a hstep hinv hi)

theorem count_wait_flatMap :
    ∀ (l : List (EchoClient × Bool)), (l.map Prod.fst).Nodup → ∀ v ∈ l,
      (l.flatMap (fun v => [Event.waitWithTimeout v.1 10000 v.2,
        Event.connClose v.1.Conn])).count (Event.waitWithTimeout v.1 10000 v.2) = 1 := by
  intro l
  induction l with
  | nil => intro _ v hv; simp at hv
  | cons x xs ih =>
    intro hnd v hv
    simp only [List.map_cons, List.nodup_cons] at hnd
    simp only [List.flatMap_cons, List.count_append]
    simp only [List.mem_cons] at hv
    rcases hv with rfl | hv
    · have hzero : List.count (Event.waitWithTimeout v.1 10000 v.2)
          (xs.flatMap (fun v => [Event.waitWithTimeout v.1 10000 v.2,
            Event.connClose v.1.Conn])) = 0 := by
        rw [List.count_eq_zero]
        simp only [List.mem_flatMap, not_exists, not_and]
        intro y hy hmem
        simp only [List.mem_cons, Event.waitWithTimeout.injEq, true_and, List.mem_singleton,
          List.not_mem_nil, or_false] at hmem
        rcases hmem with h | h
        · exact hnd.1 (List.mem_map.mpr ⟨y, hy, h.1.symm⟩)
        · simp at h
      rw [hzero]
      simp
    · have hne : x.1 ≠ v.1 := by
        intro he
        exact hnd.1 (List.mem_map.mpr ⟨v, hv, he.symm⟩)
      have hne2 : Event.waitWithTimeout x.1 10000 x.2 ≠ Event.waitWithTimeout v.1 10000 v.2 := by
        intro he
        simp only [Event.waitWithTimeout.injEq, true_and] at he
        exact hne he.1
      rw [List.count_cons_of_ne hne2.symm, List.count_cons_of_ne (by simp), ih hnd.2 v hv]
      simp

/-! ## server.go : the accept loop -/

theorem spawnsOf_append (xs ys : List MainEvent) :
    spawnsOf (xs ++ ys) = spawnsOf xs ++ spawnsOf ys := by
  induction xs with
  | nil => rfl
  | cons e es ih => cases e <;> simp [spawnsOf, ih]

theorem sendsOf_append (xs ys : List MainEvent) :
    sendsOf (xs ++ ys) = sendsOf xs ++ sendsOf ys := by
  induction xs with
  | nil => rfl
  | cons e es ih => cases e <;> simp [sendsOf, ih]

theorem acceptLoop_head (r : AcceptResult) (rs : List AcceptResult) :
    ∃ q, (acceptLoop (r :: rs)).events = MainEvent.accept r :: q := by
  cases r with
  | conn c => exact ⟨_, rfl⟩
  | err e =>
    by_cases he : e.isTimeout = true
    · simp only [acceptLoop, he, if_true]
      exact ⟨_, rfl⟩
    · simp only [acceptLoop, he, if_false]
      exact ⟨_, rfl⟩

/-- The loop on results none of which is fatal: it is still running, has asked
for every result, has sent nothing and has spawned a worker per connection. -/
theorem acceptLoop_nonfatal :
    ∀ (rs : List AcceptResult), (∀ r ∈ rs, r.isFatal = false) →
      (acceptLoop rs).ended = false ∧ (acceptLoop rs).unread = [] ∧
      sendsOf (acceptLoop rs).events = [] ∧
      spawnsOf (acceptLoop rs).events = connsOf rs := by
  intro rs
  induction rs with
  | nil => intro _; exact ⟨rfl, rfl, rfl, rfl⟩
  | cons r rs ih =>
    intro h
    obtain ⟨h1, h2, h3, h4⟩ := ih (fun x hx => h x (List.mem_cons_of_mem _ hx))
    cases r with
    | conn c => exact ⟨h1, h2, h3, by simp [acceptLoop, spawnsOf, connsOf, h4]⟩
    | err e =>
      have he : e.isTimeout = true := by
        have := h (AcceptResult.err e) (List.mem_cons_self _ _)
        simpa [AcceptResult.isFatal] using this
      exact ⟨by simp [acceptLoop, he, h1], by simp [acceptLoop, he, h2],
        by simp [acceptLoop, he, sendsOf, h3], by simp [acceptLoop, he, spawnsOf, connsOf, h4]⟩

theorem acceptsOf_append (xs ys : List MainEvent) :
    acceptsOf (xs ++ ys) = acceptsOf xs ++ acceptsOf ys := by
  induction xs with
  | nil => rfl
  | cons e es ih => cases e <;> simp [acceptsOf, ih]

/-- The trace of the loop on results none of which is fatal, result by result:
a connection is accepted, counted, added to the wait group and handed to a
worker; a timeout error is accepted and followed by a sleep of 5 ms. -/
theorem acceptLoop_trace :
    ∀ (rs : List AcceptResult), (∀ r ∈ rs, r.isFatal = false) →
      (acceptLoop rs).events = rs.flatMap (fun r =>
        match r with
        | AcceptResult.conn c => [MainEvent.accept (AcceptResult.conn c), MainEvent.counterInc,
            MainEvent.wgAdd, MainEvent.spawn c]
        | AcceptResult.err t => [MainEvent.accept (AcceptResult.err t), MainEvent.sleep 5]) ∧
      acceptsOf (acceptLoop rs).events = rs ∧
      (acceptLoop rs).events.count (MainEvent.sleep 5) = rs.countP AcceptResult.isErr ∧
      (∀ ms, MainEvent.sleep ms ∈ (acceptLoop rs).events → ms = 5) := by
  intro rs
  induction rs with
  | nil => intro _; exact ⟨rfl, rfl, rfl, by intro ms hm; simp [acceptLoop] at hm⟩
  | cons r rs ih =>
    intro h
    obtain ⟨h1, h2, h3, h4⟩ := ih (fun x hx => h x (List.mem_cons_of_mem _ hx))
    cases r with
    | conn c =>
      refine ⟨?_, ?_, ?_, ?_⟩
      · simp only [acceptLoop, List.flatMap_cons, h1]
        rfl
      · simp [acceptLoop, acceptsOf, h2]
      · simp [acceptLoop, h3, AcceptResult.isErr]
      · intro ms hm
        simp only [acceptLoop, List.mem_cons] at hm
        rcases hm with hm | hm | hm | hm | hm
        · simp at hm
        · simp at hm
        · simp at hm
        · simp at hm
        · exact h4 ms hm
    | err e =>
      have he : e.isTimeout = true := by
        have := h (AcceptResult.err e) (List.mem_cons_self _ _)
        simpa [AcceptResult.isFatal] using this
      refine ⟨?_, ?_, ?_, ?_⟩
      · simp only [acceptLoop, he, if_true, List.flatMap_cons, h1]
        rfl
      · simp [acceptLoop, he, acceptsOf, h2]
      · simp [acceptLoop, he, h3, AcceptResult.isErr]
      · intro ms hm
        simp only [acceptLoop, he, if_true, List.mem_cons] at hm
        rcases hm with hm | hm | hm
        · simp at hm
        · simpa using hm
        · exact h4 ms hm

/-- The loop on results whose first fatal one is `e`: it does what it does on
the results before `e`, then receives `e`, sends it and leaves. -/
theorem acceptLoop_fatal (e : AcceptErr) (rest : List AcceptResult) (he : e.isTimeout = false) :
    ∀ (pre : List AcceptResult), (∀ r ∈ pre, r.isFatal = false) →
      acceptLoop (pre ++ AcceptResult.err e :: rest) =
        ⟨(acceptLoop pre).events ++ [MainEvent.accept (AcceptResult.err e), MainEvent.sendErr e],
          true, rest⟩ := by
  intro pre
  induction pre with
  | nil => intro _; simp [acceptLoop, he]
  | cons r rs ih =>
    intro h
    have ih2 := ih (fun x hx => h x (List.mem_cons_of_mem _ hx))
    cases r with
    | conn c => simp [acceptLoop, ih2]
    | err t =>
      have ht : t.isTimeout = true := by
        have := h (AcceptResult.err t) (List.mem_cons_self _ _)
        simpa [AcceptResult.isFatal] using this
      simp [acceptLoop, ht, ih2]

/-- In the trace of the loop, every accept that returned a timeout error is
followed by a sleep of 5 ms and then by another accept, provided a fatal error
comes later. -/
theorem acceptLoop_backoff (e : AcceptErr) (rest : List AcceptResult) (he : e.isTimeout = false) :
    ∀ (pre : List AcceptResult), (∀ r ∈ pre, r.isFatal = false) →
      ∀ p q t, (acceptLoop (pre ++ AcceptResult.err e :: rest)).events
            = p ++ MainEvent.accept (AcceptResult.err t) :: q → t.isTimeout = true →
        ∃ r q2, q = MainEvent.sleep 5 :: MainEvent.accept r :: q2 := by
  intro pre
  induction pre with
  | nil =>
    intro _ p q t heq ht
    simp only [List.nil_append, acceptLoop, he, Bool.false_eq_true, if_false] at heq
    rcases p with _ | ⟨p1, _ | ⟨p2, p3⟩⟩
    · simp only [List.nil_append, List.cons.injEq, MainEvent.accept.injEq,
        AcceptResult.err.injEq] at heq
      rw [← heq.1, he] at ht
      exact absurd ht (by simp)
    · simp at heq
    · simp at heq
  | cons r rs ih =>
    intro h p q t heq ht
    have ih2 := ih (fun x hx => h x (List.mem_cons_of_mem _ hx))
    cases r with
    | conn c =>
      simp only [List.cons_append, acceptLoop] at heq
      rcases p with _ | ⟨p1, _ | ⟨p2, _ | ⟨p3, _ | ⟨p4, p5⟩⟩⟩⟩
      · simp at heq
      · simp at heq
      · simp at heq
      · simp at heq
      · simp only [List.cons_append, List.cons.injEq] at heq
        exact ih2 p5 q t heq.2.2.2.2 ht
    | err t0 =>
      have ht0 : t0.isTimeout = true := by
        have := h (AcceptResult.err t0) (List.mem_cons_self _ _)
        simpa [AcceptResult.isFatal] using this
      simp only [List.cons_append, acceptLoop, ht0, if_true] at heq
      rcases p with _ | ⟨p1, _ | ⟨p2, p3⟩⟩
      · simp only [List.nil_append, List.cons.injEq] at heq
        have hne : rs ++ AcceptResult.err e :: rest ≠ [] := by simp
        obtain ⟨x, xs, hx⟩ := List.exists_cons_of_ne_nil hne
        obtain ⟨q2, hq2⟩ := acceptLoop_head x xs
        have heq2 : MainEvent.sleep 5 ::
            (acceptLoop (rs ++ AcceptResult.err e :: rest)).events = q := heq.2
        rw [hx, hq2] at heq2
        exact ⟨x, q2, heq2.symm⟩
      · simp at heq
      · simp only [List.cons_append, List.cons.injEq] at heq
        exact ih2 p3 q t heq.2.2 ht

/-! ## server.go : the invariant -/

theorem countP_set_getElem? {α : Type} (p : α → Bool) :
    ∀ (l : List α) (i : Nat) (a b : α), l[i]? = some a →
      (l.set i b).countP p + (if p a = true then 1 else 0)
        = l.countP p + (if p b = true then 1 else 0) := by
  intro l
  induction l with
  | nil => intro i a b h; simp at h
  | cons x xs ih =>
    intro i a b h
    cases i with
    | zero =>
      simp only [List.getElem?_cons_zero, Option.some.injEq] at h
      subst h
      simp only [List.set_cons_zero, List.countP_cons]
      omega
    | succ j =>
      simp only [List.getElem?_cons_succ] at h
      have := ih j a b h
      simp only [List.set_cons_succ, List.countP_cons]
      omega

theorem countP_set_same {α : Type} (p : α → Bool) (l : List α) (i : Nat) (a b : α)
    (h : l[i]? = some a) (hab : p a = p b) : (l.set i b).countP p = l.countP p := by
  have := countP_set_getElem? p l i a b h
  rw [hab] at this
  omega

theorem countP_set_drop {α : Type} (p : α → Bool) (l : List α) (i : Nat) (a b : α)
    (h : l[i]? = some a) (ha : p a = true) (hb : p b = false) :
    (l.set i b).countP p + 1 = l.countP p := by
  have := countP_set_getElem? p l i a b h
  rw [ha, hb] at this
  simpa using this

theorem map_fst_set (l : List (Nat × WorkerPc)) :
    ∀ (i c : Nat) (pc pc2 : WorkerPc), l[i]? = some (c, pc) →
      (l.set i (c, pc2)).map Prod.fst = l.map Prod.fst := by
  induction l with
  | nil => intro i c pc pc2 h; simp at h
  | cons x xs ih =>
    intro i c pc pc2 h
    cases i with
    | zero =>
      simp only [List.getElem?_cons_zero, Option.some.injEq] at h
      subst h
      rfl
    | succ j =>
      simp only [List.getElem?_cons_succ] at h
      simp only [List.set_cons_succ, List.map_cons, ih j c pc pc2 h]

theorem connsOf_append (xs ys : List AcceptResult) :
    connsOf (xs ++ ys) = connsOf xs ++ connsOf ys := by
  induction xs with
  | nil => rfl
  | cons r rs ih => cases r <;> simp [connsOf, ih]

theorem server_init_inv (cc : Int) : (Server.init cc).Inv := by
  simp [Server.Inv, Server.init, WatcherPc.listenerClosed, WatcherPc.handlerCalled,
    WatcherPc.handlerReturned, MainPc.pendingAdd, MainPc.sent]

theorem server_acceptStep_inv (s s1 : Server) (r : AcceptResult)
    (hs : s.acceptStep r = some s1) (hi : s.Inv) : s1.Inv := by
  obtain ⟨h1, h2, h3, h4, h6, h7, h8, h9, h10⟩ := hi
  unfold Server.acceptStep at hs
  cases hm : s.main <;> simp only [hm] at hs <;> try (simp at hs)
  simp only [hm, MainPc.pendingAdd, MainPc.sent] at h4 h6 h8
  cases r with
  | conn c =>
    simp only [Option.some.injEq] at hs
    subst hs
    exact ⟨h1, h2, h3, h4, h6, h7, by simpa using h8, h9, h10⟩
  | err e =>
    by_cases he : e.isTimeout = true
    · simp only [he, if_true, Option.some.injEq] at hs
      subst hs
      exact ⟨h1, h2, h3, h4, h6, h7, by simpa using h8, h9, h10⟩
    · simp only [Bool.not_eq_true] at he
      simp only [he, Bool.false_eq_true, if_false, Option.some.injEq] at hs
      subst hs
      exact ⟨h1, h2, h3, h4, h6, h7, by simpa using h8, h9, h10⟩

theorem server_mainStep_inv (s s1 : Server)
    (hs : s.mainStep = some s1) (hi : s.Inv) : s1.Inv := by
  obtain ⟨h1, h2, h3, h4, h6, h7, h8, h9, h10⟩ := hi
  unfold Server.mainStep at hs
  cases hm : s.main with
  | accept => simp [hm] at hs
  | returned => simp [hm] at hs
  | sleep =>
    simp only [hm, Option.some.injEq] at hs
    simp only [hm, MainPc.pendingAdd, MainPc.sent] at h4 h6 h8
    subst hs
    exact ⟨h1, h2, h3, h4, h6, h7, by simpa using h8, h9, h10⟩
  | sendErr e =>
    simp only [hm] at hs
    simp only [hm, MainPc.pendingAdd, MainPc.sent] at h4 h6 h8
    by_cases hl : s.errCh.length < 1
    · simp only [hl, if_true, Option.some.injEq] at hs
      subst hs
      refine ⟨h1, h2, h3, h4, ?_, ?_, by simpa using h8, ?_, h10⟩
      · simp [MainPc.sent, h6]
      · simp only [List.length_append, List.length_singleton]
        omega
      · intro _
        simp only [List.length_append, List.length_singleton]
        omega
    · simp [hl] at hs
  | counterLoad c =>
    simp only [hm, Option.some.injEq] at hs
    simp only [hm, MainPc.pendingAdd, MainPc.sent] at h4 h6 h8
    subst hs
    exact ⟨h1, h2, h3, h4, h6, h7, by simpa using h8, h9, h10⟩
  | counterStore c v =>
    simp only [hm, Option.some.injEq] at hs
    simp only [hm, MainPc.pendingAdd, MainPc.sent] at h4 h6 h8
    subst hs
    exact ⟨h1, h2, h3, h4, h6, h7, by simpa using h8, h9, h10⟩
  | wgAdd c =>
    simp only [hm, Option.some.injEq] at hs
    simp only [hm, MainPc.pendingAdd, MainPc.sent] at h4 h6 h8
    subst hs
    refine ⟨h1, h2, h3, ?_, h6, h7, by simpa using h8, h9, h10⟩
    simp only [MainPc.pendingAdd]
    omega
  | spawn c =>
    simp only [hm, Option.some.injEq] at hs
    simp only [hm, MainPc.pendingAdd, MainPc.sent] at h4 h6 h8
    subst hs
    have e1 : List.countP (fun w : Nat × WorkerPc => w.2.counted)
        (s.workers ++ [(c, WorkerPc.start)])
        = List.countP (fun w : Nat × WorkerPc => w.2.counted) s.workers + 1 := by
      rw [List.countP_append]
      rfl
    refine ⟨h1, h2, h3, ?_, h6, h7, by simpa using h8, h9, h10⟩
    show s.waitDone = _ + 0
    rw [e1]
    omega
  | wgWait =>
    simp only [hm] at hs
    simp only [hm, MainPc.pendingAdd, MainPc.sent] at h4 h6 h8
    by_cases hw : s.waitDone = 0
    · simp only [hw, if_true, Option.some.injEq] at hs
      subst hs
      exact ⟨h1, h2, h3, by rw [hw] at h4; exact h4, h6, h7, by simpa using h8, h9, h10⟩
    · simp [hw] at hs
  | closeErrCh =>
    simp only [hm, Option.some.injEq] at hs
    simp only [hm, MainPc.pendingAdd, MainPc.sent] at h4 h6 h8
    subst hs
    exact ⟨h1, h2, h3, h4, h6, h7, by simp, h9, h10⟩

theorem server_signalStep_inv (s s1 : Server)
    (hs : s.signalStep = some s1) (hi : s.Inv) : s1.Inv := by
  obtain ⟨h1, h2, h3, h4, h6, h7, h8, h9, h10⟩ := hi
  unfold Server.signalStep at hs
  cases hw : s.watcher <;> simp only [hw, Option.some.injEq] at hs <;> subst hs
  · simp only [hw, WatcherPc.listenerClosed, WatcherPc.handlerCalled,
      WatcherPc.handlerReturned] at h1 h2 h3
    exact ⟨h1, h2, h3, h4, h6, h7, h8, by simp, by simp⟩
  all_goals exact ⟨h1, h2, h3, h4, h6, h7, h8, h9, h10⟩

theorem server_recvErrStep_inv (s s1 : Server)
    (hs : s.recvErrStep = some s1) (hi : s.Inv) : s1.Inv := by
  obtain ⟨h1, h2, h3, h4, h6, h7, h8, h9, h10⟩ := hi
  unfold Server.recvErrStep at hs
  cases hw : s.watcher <;> simp only [hw] at hs <;> try (simp at hs)
  simp only [hw, WatcherPc.listenerClosed, WatcherPc.handlerCalled,
    WatcherPc.handlerReturned] at h1 h2 h3
  have h9b := h9 hw
  cases hc : s.errCh with
  | nil =>
    simp only [hc] at hs
    by_cases hcl : s.errChClosed = true
    · have hret := h8.mp hcl
      simp only [hret, MainPc.sent] at h6
      rw [hc] at h9b
      simp only [List.length_nil] at h9b
      omega
    · simp [hcl] at hs
  | cons x rest =>
    simp only [hc, Option.some.injEq] at hs
    subst hs
    rw [hc] at h7
    simp only [List.length_cons] at h7
    exact ⟨h1, h2, h3, h4, h6, by show rest.length ≤ s.errSends; omega, h8, by simp, by simp⟩

theorem server_watcherStep_inv (s s1 : Server)
    (hs : s.watcherStep = some s1) (hi : s.Inv) : s1.Inv := by
  obtain ⟨h1, h2, h3, h4, h6, h7, h8, h9, h10⟩ := hi
  unfold Server.watcherStep at hs
  cases hw : s.watcher <;> simp only [hw] at hs <;> try (simp at hs; done)
  all_goals
    simp only [Option.some.injEq] at hs
    subst hs
    simp only [hw, WatcherPc.listenerClosed, WatcherPc.handlerCalled,
      WatcherPc.handlerReturned] at h1 h2 h3
    refine ⟨?_, ?_, ?_, h4, h6, h7, h8, by simp, by simp⟩ <;>
      simp [WatcherPc.listenerClosed, WatcherPc.handlerCalled, WatcherPc.handlerReturned,
        h1, h2, h3]

theorem server_workerStep_inv (s s1 : Server) (i : Nat)
    (hs : s.workerStep i = some s1) (hi : s.Inv) : s1.Inv := by
  obtain ⟨h1, h2, h3, h4, h6, h7, h8, h9, h10⟩ := hi
  unfold Server.workerStep at hs
  cases hw : s.workers[i]? with
  | none => simp [hw] at hs
  | some w =>
    obtain ⟨c, pc⟩ := w
    cases pc with
    | start =>
      simp only [hw, Option.some.injEq] at hs
      subst hs
      have e1 := countP_set_same (fun w : Nat × WorkerPc => w.2.counted) s.workers i
        (c, WorkerPc.start) (c, WorkerPc.inHandle) hw rfl
      refine ⟨h1, h2, h3, ?_, h6, h7, h8, h9, h10⟩
      show s.waitDone = List.countP (fun w : Nat × WorkerPc => w.2.counted)
        (s.workers.set i (c, WorkerPc.inHandle)) + s.main.pendingAdd
      rw [e1]
      exact h4
    | inHandle =>
      simp only [hw, Option.some.injEq] at hs
      subst hs
      have e1 := countP_set_same (fun w : Nat × WorkerPc => w.2.counted) s.workers i
        (c, WorkerPc.inHandle) (c, WorkerPc.wgDone) hw rfl
      refine ⟨h1, h2, h3, ?_, h6, h7, h8, h9, h10⟩
      show s.waitDone = List.countP (fun w : Nat × WorkerPc => w.2.counted)
        (s.workers.set i (c, WorkerPc.wgDone)) + s.main.pendingAdd
      rw [e1]
      exact h4
    | wgDone =>
      simp only [hw, Option.some.injEq] at hs
      subst hs
      have e1 := countP_set_drop (fun w : Nat × WorkerPc => w.2.counted) s.workers i
        (c, WorkerPc.wgDone) (c, WorkerPc.counterLoad) hw rfl rfl
      refine ⟨h1, h2, h3, ?_, h6, h7, h8, h9, h10⟩
      show s.waitDone - 1 = List.countP (fun w : Nat × WorkerPc => w.2.counted)
        (s.workers.set i (c, WorkerPc.counterLoad)) + s.main.pendingAdd
      omega
    | counterLoad =>
      simp only [hw, Option.some.injEq] at hs
      subst hs
      have e1 := countP_set_same (fun w : Nat × WorkerPc => w.2.counted) s.workers i
        (c, WorkerPc.counterLoad) (c, WorkerPc.counterStore s.ClientCounter) hw rfl
      refine ⟨h1, h2, h3, ?_, h6, h7, h8, h9, h10⟩
      show s.waitDone = List.countP (fun w : Nat × WorkerPc => w.2.counted)
        (s.workers.set i (c, WorkerPc.counterStore s.ClientCounter)) + s.main.pendingAdd
      rw [e1]
      exact h4
    | counterStore v =>
      simp only [hw, Option.some.injEq] at hs
      subst hs
      have e1 := countP_set_same (fun w : Nat × WorkerPc => w.2.counted) s.workers i
        (c, WorkerPc.counterStore v) (c, WorkerPc.exited) hw rfl
      refine ⟨h1, h2, h3, ?_, h6, h7, h8, h9, h10⟩
      show s.waitDone = List.countP (fun w : Nat × WorkerPc => w.2.counted)
        (s.workers.set i (c, WorkerPc.exited)) + s.main.pendingAdd
      rw [e1]
      exact h4
    | exited => simp [hw] at hs

theorem server_step_inv (s s1 : Server) (a : SAction)
    (hs : s.step a = some s1) (hi : s.Inv) : s1.Inv := by
  cases a with
  | accept r => exact server_acceptStep_inv s s1 r hs hi
  | main => exact server_mainStep_inv s s1 hs hi
  | signal => exact server_signalStep_inv s s1 hs hi
  | recvErr => exact server_recvErrStep_inv s s1 hs hi
  | watcher => exact server_watcherStep_inv s s1 hs hi
  | worker i => exact server_workerStep_inv s s1 i hs hi

theorem server_run_inv (acts : List SAction) :
    ∀ (s s1 : Server), Server.run s acts = some s1 → s.Inv → s1.Inv := by
  induction acts with
  | nil =>
    intro s s1 hr hi
    simp only [Server.run, Option.some.injEq] at hr
    rw [← hr]
    exact hi
  | cons a as ih =>
    intro s s1 hr hi
    simp only [Server.run] at hr
    cases hstep : s.step a with
    | none => simp [hstep] at hr
    | some s2 =>
      simp only [hstep] at hr
      exact ih s2 s1 hr (server_step_inv s s2 a hstep hi)

theorem server_init_joined (cc : Int) : (Server.init cc).Joined := by
  intro h
  rfl

theorem server_step_joined (s s1 : Server) (a : SAction)
    (hs : s.step a = some s1) (hj : s.Joined) : s1.Joined := by
  unfold Server.Joined at hj ⊢
  cases a with
  | accept r =>
    simp only [Server.step, Server.acceptStep] at hs
    cases hm : s.main <;> simp only [hm] at hs <;> try (simp at hs)
    cases r with
    | conn c =>
      simp only [Option.some.injEq] at hs
      subst hs
      simp
    | err e =>
      cases he : e.isTimeout <;> simp only [he, Bool.false_eq_true, if_false, if_true,
        Option.some.injEq] at hs <;> subst hs <;> simp
  | main =>
    simp only [Server.step, Server.mainStep] at hs
    cases hm : s.main with
    | accept => simp [hm] at hs
    | returned => simp [hm] at hs
    | sleep =>
      simp only [hm, Option.some.injEq] at hs
      subst hs
      simp
    | sendErr e =>
      simp only [hm] at hs
      by_cases hl : s.errCh.length < 1
      · simp only [hl, if_true, Option.some.injEq] at hs
        subst hs
        simp
      · simp [hl] at hs
    | counterLoad c =>
      simp only [hm, Option.some.injEq] at hs
      subst hs
      simp
    | counterStore c v =>
      simp only [hm, Option.some.injEq] at hs
      subst hs
      simp
    | wgAdd c =>
      simp only [hm, Option.some.injEq] at hs
      subst hs
      simp
    | spawn c =>
      simp only [hm, Option.some.injEq] at hs
      subst hs
      simp
    | wgWait =>
      simp only [hm] at hs
      by_cases hw : s.waitDone = 0
      · simp only [hw, if_true, Option.some.injEq] at hs
        subst hs
        simp
      · simp [hw] at hs
    | closeErrCh =>
      simp only [hm, Option.some.injEq] at hs
      subst hs
      intro _
      exact hj (Or.inl hm)
  | signal =>
    simp only [Server.step, Server.signalStep] at hs
    cases hw : s.watcher <;> simp only [hw, Option.some.injEq] at hs <;> subst hs <;> exact hj
  | recvErr =>
    simp only [Server.step, Server.recvErrStep] at hs
    cases hw : s.watcher <;> simp only [hw] at hs <;> try (simp at hs)
    cases hc : s.errCh with
    | nil =>
      cases hcl : s.errChClosed <;> simp only [hc, hcl, Bool.false_eq_true, if_false, if_true,
        Option.some.injEq] at hs
      · simp at hs
      · subst hs
        exact hj
    | cons x rest =>
      simp only [hc, Option.some.injEq] at hs
      subst hs
      exact hj
  | watcher =>
    simp only [Server.step, Server.watcherStep] at hs
    cases hw : s.watcher <;> simp only [hw] at hs <;> try (simp at hs; done)
    all_goals
      simp only [Option.some.injEq] at hs
      subst hs
      exact hj
  | worker i =>
    simp only [Server.step, Server.workerStep] at hs
    cases hw : s.workers[i]? with
    | none => simp [hw] at hs
    | some w =>
      obtain ⟨c, pc⟩ := w
      cases pc <;> simp only [hw] at hs <;> try (simp at hs; done)
      all_goals
        simp only [Option.some.injEq] at hs
        subst hs
        intro hm
        have := hj hm
        show _ = 0
        first | exact this | (show s.waitDone - 1 = 0; omega)

theorem server_run_joined (acts : List SAction) :
    ∀ (s s1 : Server), Server.run s acts = some s1 → s.Joined → s1.Joined := by
  induction acts with
  | nil =>
    intro s s1 hr hi
    simp only [Server.run, Option.some.injEq] at hr
    rw [← hr]
    exact hi
  | cons a as ih =>
    intro s s1 hr hi
    simp only [Server.run] at hr
    cases hstep : s.step a with
    | none => simp [hstep] at hr
    | some s2 =>
      simp only [hstep] at hr
      exact ih s2 s1 hr (server_step_joined s s2 a hstep hi)

/-! ## server.go : the accept loop inside the execution -/

theorem server_init_loop (cc : Int) : (Server.init cc).LoopInv := by
  refine ⟨?_, ?_, ?_, ?_, ?_⟩
  · intro _
    exact ⟨by intro r hr; simp [Server.init] at hr, rfl⟩
  · intro e he
    simp [Server.init] at he
  · intro h
    simp [Server.init, MainPc.sent] at h
  · intro _
    rfl
  · rfl

theorem server_acceptStep_loop (s s1 : Server) (r : AcceptResult)
    (hs : s.acceptStep r = some s1) (hi : s.LoopInv) : s1.LoopInv := by
  obtain ⟨l1, l2, l3, l4, l5⟩ := hi
  unfold Server.acceptStep at hs
  cases hm : s.main <;> simp only [hm] at hs <;> try (simp at hs)
  obtain ⟨hnf, hsent⟩ := l1 (by rw [hm]; rfl)
  simp only [hm, MainPc.pendingConn, List.append_nil] at l5
  cases r with
  | conn c =>
    simp only [Option.some.injEq] at hs
    subst hs
    refine ⟨?_, ?_, ?_, l4, ?_⟩
    · intro _
      refine ⟨?_, hsent⟩
      intro r hr
      simp only [List.mem_append, List.mem_singleton] at hr
      rcases hr with hr | rfl
      · exact hnf r hr
      · rfl
    · intro e he
      simp at he
    · intro h
      simp [MainPc.sent] at h
    · show s.workers.map Prod.fst ++ [c] = connsOf (s.accepted ++ [AcceptResult.conn c])
      rw [connsOf_append, l5]
      rfl
  | err e =>
    by_cases he : e.isTimeout = true
    · simp only [he, if_true, Option.some.injEq] at hs
      subst hs
      refine ⟨?_, ?_, ?_, l4, ?_⟩
      · intro _
        refine ⟨?_, hsent⟩
        intro r hr
        simp only [List.mem_append, List.mem_singleton] at hr
        rcases hr with hr | rfl
        · exact hnf r hr
        · simp [AcceptResult.isFatal, he]
      · intro e2 he2
        simp at he2
      · intro h
        simp [MainPc.sent] at h
      · show s.workers.map Prod.fst ++ [] = connsOf (s.accepted ++ [AcceptResult.err e])
        rw [connsOf_append, l5]
        rfl
    · simp only [Bool.not_eq_true] at he
      simp only [he, Bool.false_eq_true, if_false, Option.some.injEq] at hs
      subst hs
      refine ⟨?_, ?_, ?_, l4, ?_⟩
      · intro h
        simp [MainPc.inLoop] at h
      · intro e2 he2
        simp only [MainPc.sendErr.injEq] at he2
        subst he2
        exact ⟨s.accepted, rfl, hnf, he, hsent⟩
      · intro h
        simp [MainPc.sent] at h
      · show s.workers.map Prod.fst ++ [] = connsOf (s.accepted ++ [AcceptResult.err e])
        rw [connsOf_append, l5]
        rfl

theorem server_mainStep_loop (s s1 : Server)
    (hs : s.mainStep = some s1) (hi : s.LoopInv) : s1.LoopInv := by
  obtain ⟨l1, l2, l3, l4, l5⟩ := hi
  unfold Server.mainStep at hs
  cases hm : s.main with
  | accept => simp [hm] at hs
  | returned => simp [hm] at hs
  | sleep =>
    simp only [hm, Option.some.injEq] at hs
    have h1 := l1 (by rw [hm]; rfl)
    simp only [hm, MainPc.pendingConn] at l5
    subst hs
    exact ⟨fun _ => h1, by intro e he; simp at he, by intro h; simp [MainPc.sent] at h,
      l4, l5⟩
  | sendErr e =>
    simp only [hm] at hs
    obtain ⟨pre, hacc, hpre, he, hsent⟩ := l2 e hm
    simp only [hm, MainPc.pendingConn] at l5
    by_cases hl : s.errCh.length < 1
    · simp only [hl, if_true, Option.some.injEq] at hs
      subst hs
      refine ⟨?_, ?_, ?_, ?_, l5⟩
      · intro h
        simp [MainPc.inLoop] at h
      · intro e2 he2
        simp at he2
      · intro _
        exact ⟨pre, e, hacc, hpre, he, by simp [hsent]⟩
      · intro hw
        show s.errCh ++ [e] = s.sentErrs ++ [e]
        rw [l4 hw]
    · simp [hl] at hs
  | counterLoad c =>
    simp only [hm, Option.some.injEq] at hs
    have h1 := l1 (by rw [hm]; rfl)
    simp only [hm, MainPc.pendingConn] at l5
    subst hs
    exact ⟨fun _ => h1, by intro e he; simp at he, by intro h; simp [MainPc.sent] at h,
      l4, l5⟩
  | counterStore c v =>
    simp only [hm, Option.some.injEq] at hs
    have h1 := l1 (by rw [hm]; rfl)
    simp only [hm, MainPc.pendingConn] at l5
    subst hs
    exact ⟨fun _ => h1, by intro e he; simp at he, by intro h; simp [MainPc.sent] at h,
      l4, l5⟩
  | wgAdd c =>
    simp only [hm, Option.some.injEq] at hs
    have h1 := l1 (by rw [hm]; rfl)
    simp only [hm, MainPc.pendingConn] at l5
    subst hs
    exact ⟨fun _ => h1, by intro e he; simp at he, by intro h; simp [MainPc.sent] at h,
      l4, l5⟩
  | spawn c =>
    simp only [hm, Option.some.injEq] at hs
    have h1 := l1 (by rw [hm]; rfl)
    simp only [hm, MainPc.pendingConn] at l5
    subst hs
    refine ⟨fun _ => h1, by intro e he; simp at he, by intro h; simp [MainPc.sent] at h,
      l4, ?_⟩
    show (s.workers ++ [(c, WorkerPc.start)]).map Prod.fst ++ [] = connsOf s.accepted
    rw [← l5]
    simp
  | wgWait =>
    simp only [hm] at hs
    have h3 := l3 (by rw [hm]; rfl)
    simp only [hm, MainPc.pendingConn] at l5
    by_cases hw : s.waitDone = 0
    · simp only [hw, if_true, Option.some.injEq] at hs
      subst hs
      exact ⟨by intro h; simp [MainPc.inLoop] at h, by intro e he; simp at he, fun _ => h3,
        l4, l5⟩
    · simp [hw] at hs
  | closeErrCh =>
    simp only [hm, Option.some.injEq] at hs
    have h3 := l3 (by rw [hm]; rfl)
    simp only [hm, MainPc.pendingConn] at l5
    subst hs
    exact ⟨by intro h; simp [MainPc.inLoop] at h, by intro e he; simp at he, fun _ => h3,
      l4, l5⟩

theorem server_step_loop (s s1 : Server) (a : SAction)
    (hs : s.step a = some s1) (hi : s.LoopInv) : s1.LoopInv := by
  cases a with
  | accept r => exact server_acceptStep_loop s s1 r hs hi
  | main => exact server_mainStep_loop s s1 hs hi
  | signal =>
    obtain ⟨l1, l2, l3, l4, l5⟩ := hi
    simp only [Server.step, Server.signalStep] at hs
    cases hw : s.watcher <;> simp only [hw, Option.some.injEq] at hs <;> subst hs
    · exact ⟨l1, l2, l3, by intro h; simp at h, l5⟩
    all_goals exact ⟨l1, l2, l3, l4, l5⟩
  | recvErr =>
    obtain ⟨l1, l2, l3, l4, l5⟩ := hi
    simp only [Server.step, Server.recvErrStep] at hs
    cases hw : s.watcher <;> simp only [hw] at hs <;> try (simp at hs)
    cases hc : s.errCh with
    | nil =>
      cases hcl : s.errChClosed <;> simp only [hc, hcl, Bool.false_eq_true, if_false, if_true,
        Option.some.injEq] at hs
      · simp at hs
      · subst hs
        exact ⟨l1, l2, l3, by intro h; simp at h, l5⟩
    | cons x rest =>
      simp only [hc, Option.some.injEq] at hs
      subst hs
      exact ⟨l1, l2, l3, by intro h; simp at h, l5⟩
  | watcher =>
    obtain ⟨l1, l2, l3, l4, l5⟩ := hi
    simp only [Server.step, Server.watcherStep] at hs
    cases hw : s.watcher <;> simp only [hw] at hs <;> try (simp at hs; done)
    all_goals
      simp only [Option.some.injEq] at hs
      subst hs
      exact ⟨l1, l2, l3, by intro h; simp at h, l5⟩
  | worker i =>
    obtain ⟨l1, l2, l3, l4, l5⟩ := hi
    simp only [Server.step, Server.workerStep] at hs
    cases hw : s.workers[i]? with
    | none => simp [hw] at hs
    | some w =>
      obtain ⟨c, pc⟩ := w
      cases pc <;> simp only [hw] at hs <;> try (simp at hs; done)
      all_goals
        simp only [Option.some.injEq] at hs
        subst hs
        refine ⟨l1, l2, l3, l4, ?_⟩
        show (s.workers.set i _).map Prod.fst ++ s.main.pendingConn = connsOf s.accepted
        rw [map_fst_set s.workers i c _ _ hw]
        exact l5

theorem server_run_loop (acts : List SAction) :
    ∀ (s s1 : Server), Server.run s acts = some s1 → s.LoopInv → s1.LoopInv := by
  induction acts with
  | nil =>
    intro s s1 hr hi
    simp only [Server.run, Option.some.injEq] at hr
    rw [← hr]
    exact hi
  | cons a as ih =>
    intro s s1 hr hi
    simp only [Server.run] at hr
    cases hstep : s.step a with
    | none => simp [hstep] at hr
    | some s2 =>
      simp only [hstep] at hr
      exact ih s2 s1 hr (server_step_loop s s2 a hstep hi)

/-! ## echo.go : properties of `Handle` -/

/-- C1. Echo round trip: on a handler that is not closing, for any list of
lines, each ending in its only newline, delivered and followed by
end-of-stream, `Handle` returns, and the writes it made are exactly those lines
to that connection, byte for byte and in order (so there are as many writes as
lines); the last thing it does is deregister the client on end-of-stream.  This
holds whatever the writes report, in particular when they all succeed. -/
theorem echo_round_trip (h : EchoHandler) (ptr conn : Nat) (writeOk : Nat → Bool)
    (lines : List (List Nat)) (hopen : h.closing = false)
    (hlines : ∀ l ∈ lines, ∃ body, l = body ++ [10] ∧ 10 ∉ body) :
    ∃ res, h.Handle ptr conn ⟨lines.flatten, ReadErr.EOF⟩ writeOk = some res ∧
      writesOf res.events = lines.map (fun l => (conn, l)) ∧
      (writesOf res.events).length = lines.length ∧
      res.events.getLast? = some (Event.delete ⟨ptr, conn⟩) := by
  obtain ⟨res, hres, hw, -, hlast⟩ :=
    handleLoop_lines ⟨ptr, conn⟩ writeOk lines hlines (lines.flatten.length + 1)
      { h with activeConn := Store h.activeConn ⟨ptr, conn⟩ } 0 (Nat.lt_succ_self _)
  refine ⟨{ res with events := [Event.store ⟨ptr, conn⟩] ++ res.events }, ?_, ?_, ?_, ?_⟩
  · simp only [hopen] at hres
    simp only [EchoHandler.Handle, EchoHandler.handleEnter, hopen, Bool.false_eq_true,
      if_false, hres]
  · simpa [writesOf] using hw
  · simp [writesOf, hw]
  · simp only [List.getLast?_append, hlast]
    rfl

theorem echo_round_trip_witness :
    MakeEchoHandler.closing = false ∧
    (∀ l ∈ [[104, 105, 10], [10]], ∃ body, l = body ++ [10] ∧ 10 ∉ body) ∧
    ∃ res, MakeEchoHandler.Handle 0 7 ⟨[[104, 105, 10], [10]].flatten, ReadErr.EOF⟩
        (fun _ => true) = some res ∧
      writesOf res.events = [[104, 105, 10], [10]].map (fun l => (7, l)) ∧
      (writesOf res.events).length = [[104, 105, 10], [10]].length ∧
      res.events.getLast? = some (Event.delete ⟨0, 7⟩) := by
  have hl : ∀ l ∈ [[104, 105, 10], [10]], ∃ body, l = body ++ [10] ∧ 10 ∉ body := by
    intro l hl
    simp only [List.mem_cons, List.mem_singleton, List.not_mem_nil, or_false] at hl
    rcases hl with rfl | rfl
    · exact ⟨[104, 105], rfl, by decide⟩
    · exact ⟨[], rfl, by decide⟩
  exact ⟨rfl, hl, echo_round_trip MakeEchoHandler 0 7 (fun _ => true) _ rfl hl⟩

/-- C10. Drain-token bracketing: for every handler state, every input stream
(ending in end-of-stream or in a read error) and every outcome of the writes,
`Handle` returns with the token at 0; the token is 0 at every read, 1 after every
increment and during every write, 0 after every decrement; every write is
immediately preceded by an increment and immediately followed by a decrement of
this client's token, whether the write succeeded or not; the numbers of
increments, decrements and writes are equal, and (unless the call is rejected)
equal to the number of complete lines received; the k-th write has the outcome
the environment gave it. -/
theorem handle_token_bracketing (h : EchoHandler) (ptr conn : Nat) (r : Reader)
    (writeOk : Nat → Bool) :
    ∃ res, h.Handle ptr conn r writeOk = some res ∧
      res.waiting = 0 ∧
      (∀ c w, Event.readString c w ∈ res.events → w = 0) ∧
      (∀ c w, Event.waitingAdd c w ∈ res.events → w = 1) ∧
      (∀ c w, Event.waitingDone c w ∈ res.events → w = 0) ∧
      (∀ pre post c b ok w, res.events = pre ++ Event.write c b ok w :: post →
        w = 1 ∧ (∃ pre2, pre = pre2 ++ [Event.waitingAdd ⟨ptr, conn⟩ 1]) ∧
        (∃ post2, post = Event.waitingDone ⟨ptr, conn⟩ 0 :: post2)) ∧
      res.events.countP Event.isAdd = res.events.countP Event.isWrite ∧
      res.events.countP Event.isDone = res.events.countP Event.isWrite ∧
      res.events.countP Event.isWrite = (if h.closing then 0 else r.buf.count 10) ∧
      writeOutcomes res.events = (List.range (res.events.countP Event.isWrite)).map writeOk := by
  cases hc : h.closing with
  | true =>
    refine ⟨⟨h, [Event.connClose conn], 0⟩, ?_, rfl, ?_, ?_, ?_, ?_, ?_, ?_, ?_, ?_⟩
    · simp [EchoHandler.Handle, EchoHandler.handleEnter, hc]
    · intro c w hm; simp at hm
    · intro c w hm; simp at hm
    · intro c w hm; simp at hm
    · intro pre post c b ok w heq
      rcases pre with _ | ⟨p1, pre2⟩ <;> simp at heq
    · simp [Event.isAdd, Event.isWrite]
    · simp [Event.isDone, Event.isWrite]
    · simp [Event.isWrite]
    · simp [Event.isWrite, writeOutcomes]
  | false =>
    obtain ⟨res, hres, hw0, hrd, hadd, hdone, hbr, hca, hcd, hcw, hout⟩ :=
      handleLoop_token ⟨ptr, conn⟩ writeOk (r.buf.length + 1)
        { h with activeConn := Store h.activeConn ⟨ptr, conn⟩ } r 0 (Nat.lt_succ_self _)
    refine ⟨{ res with events := [Event.store ⟨ptr, conn⟩] ++ res.events }, ?_, hw0,
      ?_, ?_, ?_, ?_, ?_, ?_, ?_, ?_⟩
    · simp only [hc] at hres
      simp only [EchoHandler.Handle, EchoHandler.handleEnter, hc, Bool.false_eq_true,
        if_false, hres]
    · intro c w hm
      simp only [List.singleton_append, List.mem_cons] at hm
      rcases hm with hm | hm
      · simp at hm
      · exact hrd c w hm
    · intro c w hm
      simp only [List.singleton_append, List.mem_cons] at hm
      rcases hm with hm | hm
      · simp at hm
      · exact hadd c w hm
    · intro c w hm
      simp only [List.singleton_append, List.mem_cons] at hm
      rcases hm with hm | hm
      · simp at hm
      · exact hdone c w hm
    · intro pre post c b ok w heq
      rcases pre with _ | ⟨p1, pre2⟩
      · simp at heq
      · simp only [List.singleton_append, List.cons_append, List.cons.injEq] at heq
        obtain ⟨hw, ⟨q, hq⟩, hpost⟩ := hbr pre2 post c b ok w heq.2
        exact ⟨hw, ⟨p1 :: q, by simp [hq]⟩, hpost⟩
    · simp [Event.isAdd, Event.isWrite, hca, hcw]
    · simp [Event.isDone, Event.isWrite, hcd, hcw]
    · simp [Event.isWrite, hcw]
    · have h1 : writeOutcomes ([Event.store ⟨ptr, conn⟩] ++ res.events)
          = writeOutcomes res.events := rfl
      have h2 : List.countP Event.isWrite ([Event.store ⟨ptr, conn⟩] ++ res.events)
          = r.buf.count 10 := by simp [Event.isWrite, hcw]
      show writeOutcomes ([Event.store ⟨ptr, conn⟩] ++ res.events) = _
      rw [h1, hout]
      show _ = List.map writeOk (List.range
        (List.countP Event.isWrite ([Event.store ⟨ptr, conn⟩] ++ res.events)))
      rw [h2]
      apply List.map_congr_left
      intro k _
      simp

/-! ## echo.go : properties of `Close` and of the shared handler -/

/-- C2. Rejection after close is permanent: start from any state of the shared
handler, let `Close` be called, and let any further steps follow (entries of
`Handle`, passes of running calls through the read loop, calls of `Close`).  In
the state reached the closing flag is true, and every call `Handle(ctx, conn)`
made there only closes `conn`: as a whole call it returns the handler unchanged
with the single event `connClose conn` (no store, no read, no write), and as a
step of the shared handler it changes nothing but the trace, so the call does
not join the calls inside the read loop. -/
theorem rejection_after_close_permanent (s0 s : Sys) (timedOut : List EchoClient)
    (acts : List Action) (hrun : Sys.run s0 (Action.close timedOut :: acts) = some s) :
    s.h.closing = true ∧
    ∀ conn : Nat,
      (∀ ptr r writeOk,
        s.h.Handle ptr conn r writeOk = some ⟨s.h, [Event.connClose conn], 0⟩) ∧
      s.step (Action.enter conn) = some { s with trace := s.trace ++ [Event.connClose conn] } := by
  have hc : s.h.closing = true := by
    simp only [Sys.run, Sys.step] at hrun
    exact sys_run_closing acts _ s hrun rfl
  refine ⟨hc, fun conn => ⟨?_, ?_⟩⟩
  · intro ptr r writeOk
    simp [EchoHandler.Handle, EchoHandler.handleEnter, hc]
  · simp [Sys.step, EchoHandler.handleEnter, hc]

theorem rejection_after_close_permanent_witness :
    Sys.run Sys.init [Action.close [], Action.enter 3, Action.close []]
      = some ⟨⟨[], true⟩, 0, [], [], ClosePc.idle, [],
          [Event.closingSet true, Event.connClose 3, Event.closingSet true],
          [], [], [], [], [], [], [], none⟩ ∧
    (⟨[], true⟩ : EchoHandler).closing = true ∧
    (⟨[], true⟩ : EchoHandler).Handle 5 4 ⟨[104, 10], ReadErr.EOF⟩ (fun _ => true)
      = some ⟨⟨[], true⟩, [Event.connClose 4], 0⟩ :=
  have hr : Sys.run Sys.init [Action.close [], Action.enter 3, Action.close []]
      = some ⟨⟨[], true⟩, 0, [], [], ClosePc.idle, [],
          [Event.closingSet true, Event.connClose 3, Event.closingSet true],
          [], [], [], [], [], [], [], none⟩ := rfl
  ⟨hr, (rejection_after_close_permanent Sys.init _ [] _ hr).1,
    ((rejection_after_close_permanent Sys.init _ [] _ hr).2 4).1 5 _ _⟩

/-- C3 as stated fails: a handler with one registered connection still has it
in the active set after `Close` has returned; the same state is reached by
running `Handle` on a fresh handler and then calling `Close`, as one step or
statement by statement. -/
theorem close_keeps_active_set :
    ((⟨[⟨0, 7⟩], false⟩ : EchoHandler).Close (fun _ => false)).1.activeConn = [⟨0, 7⟩] ∧
    ((⟨[⟨0, 7⟩], false⟩ : EchoHandler).Close (fun _ => false)).1.activeConn ≠ [] ∧
    (Sys.run Sys.init [Action.enter 7, Action.close []]).map (fun s => s.h.activeConn)
      = some [⟨0, 7⟩] ∧
    (Sys.run Sys.init [Action.enter 7, Action.closeSet, Action.rangeStart,
        Action.rangeStep ⟨0, 7⟩ false, Action.closeEnd]).map
        (fun s => (s.closePc, s.closeRet, s.h.activeConn))
      = some (ClosePc.returned, some none, [⟨0, 7⟩]) := by
  refine ⟨rfl, by decide, rfl, rfl⟩

/-- C3, amended. When the call of `Close` has returned, every client that was
registered when its sweep started and is still registered has had its
connection closed by that call, whatever the number of clients; a client
registered at the start of the sweep is still in the active set unless its own
call of `Handle` observed end-of-stream, so the set is empty only if all of them
did; and no statement of `Close` changes the active set. -/
theorem close_closes_all_keeps_set (acts : List Action) (s : Sys)
    (hrun : Sys.run Sys.init acts = some s) (hret : s.closePc = ClosePc.returned) :
    (∀ c ∈ s.atStart, c ∈ s.h.activeConn → Event.connClose c.Conn ∈ s.closeTrace) ∧
    (∀ c ∈ s.atStart, c ∈ s.h.activeConn ∨ c ∈ s.sawEOF) ∧
    (s.h.activeConn = [] → ∀ c ∈ s.atStart, c ∈ s.sawEOF) ∧
    (∀ (s0 s1 : Sys) (a : Action), a.ofClose = true → s0.step a = some s1 →
      s1.h.activeConn = s0.h.activeConn) := by
  have hinv := sys_run_inv acts Sys.init s hrun sys_init_inv
  obtain ⟨-, -, i3, -, -, i6, -, -, i9, -, i11⟩ :=
    sys_run_sweep acts Sys.init s hrun sys_init_inv sys_init_sweep
  have hne : s.closePc ≠ ClosePc.idle := by rw [hret]; simp
  have htodo := (i11 hret).1
  have hkeep : ∀ c ∈ s.atStart, c ∈ s.h.activeConn ∨ c ∈ s.sawEOF := by
    intro c hc
    by_cases he : c ∈ s.sawEOF
    · exact Or.inr he
    · exact Or.inl ((hinv.1 c).mpr ⟨i9 c hc, he⟩)
  refine ⟨?_, hkeep, ?_, ?_⟩
  · intro c hc hact
    have hv : c ∈ s.visited.map Prod.fst := by
      rcases i6 c hc with h | h | h
      · rw [htodo] at h
        simp at h
      · exact h
      · exact absurd h ((hinv.1 c).mp hact).2
    rw [i3 hne]
    obtain ⟨v, hv1, hv2⟩ := List.mem_map.mp hv
    refine List.mem_cons_of_mem _ (List.mem_flatMap.mpr ⟨v, hv1, ?_⟩)
    rw [hv2]
    simp
  · intro hnil c hc
    rcases hkeep c hc with h | h
    · rw [hnil] at h
      simp at h
    · exact h
  · intro s0 s1 a ha hs
    cases a with
    | enter conn => simp [Action.ofClose] at ha
    | iter c rd wok => simp [Action.ofClose] at ha
    | check conn => simp [Action.ofClose] at ha
    | store conn => simp [Action.ofClose] at ha
    | close t =>
      simp only [Sys.step, EchoHandler.Close, Option.some.injEq] at hs
      rw [← hs]
    | closeSet =>
      simp only [Sys.step] at hs
      cases hp : s0.closePc <;> simp only [hp] at hs <;> try (simp at hs; done)
      simp only [Option.some.injEq] at hs
      rw [← hs]
    | rangeStart =>
      simp only [Sys.step] at hs
      cases hp : s0.closePc <;> simp only [hp] at hs <;> try (simp at hs; done)
      simp only [Option.some.injEq] at hs
      rw [← hs]
    | rangeStep c t =>
      simp only [Sys.step] at hs
      cases hp : s0.closePc <;> simp only [hp] at hs <;> try (simp at hs; done)
      split at hs
      · split at hs <;> simp only [Option.some.injEq] at hs <;> rw [← hs]
      · simp at hs
    | closeEnd =>
      simp only [Sys.step] at hs
      cases hp : s0.closePc <;> simp only [hp] at hs <;> try (simp at hs; done)
      split at hs
      · simp only [Option.some.injEq] at hs
        rw [← hs]
      · simp at hs

theorem close_closes_all_keeps_set_witness :
    Sys.run Sys.init [Action.enter 7, Action.enter 8, Action.closeSet, Action.rangeStart,
        Action.iter ⟨1, 8⟩ ([], some ReadErr.EOF) true, Action.rangeStep ⟨1, 8⟩ false,
        Action.rangeStep ⟨0, 7⟩ true, Action.closeEnd]
      = some ⟨⟨[⟨0, 7⟩], true⟩, 2, [⟨0, 7⟩], [], ClosePc.returned, [],
          [Event.store ⟨0, 7⟩, Event.store ⟨1, 8⟩, Event.closingSet true,
           Event.readString 8 0, Event.delete ⟨1, 8⟩,
           Event.waitWithTimeout ⟨0, 7⟩ 10000 true, Event.connClose 7],
          [⟨1, 8⟩, ⟨0, 7⟩], [⟨1, 8⟩], [], [⟨0, 7⟩], [⟨0, 7⟩, ⟨1, 8⟩], [(⟨0, 7⟩, true)],
          [Event.closingSet true, Event.waitWithTimeout ⟨0, 7⟩ 10000 true, Event.connClose 7],
          some none⟩ ∧
    ((⟨0, 7⟩ : EchoClient) ∈ [(⟨0, 7⟩ : EchoClient), ⟨1, 8⟩] →
      (⟨0, 7⟩ : EchoClient) ∈ [(⟨0, 7⟩ : EchoClient)] →
      Event.connClose 7 ∈ [Event.closingSet true,
        Event.waitWithTimeout ⟨0, 7⟩ 10000 true, Event.connClose 7]) ∧
    ((⟨1, 8⟩ : EchoClient) ∈ [(⟨0, 7⟩ : EchoClient)] ∨
      (⟨1, 8⟩ : EchoClient) ∈ [(⟨1, 8⟩ : EchoClient)]) :=
  have hr : Sys.run Sys.init [Action.enter 7, Action.enter 8, Action.closeSet,
        Action.rangeStart, Action.iter ⟨1, 8⟩ ([], some ReadErr.EOF) true,
        Action.rangeStep ⟨1, 8⟩ false, Action.rangeStep ⟨0, 7⟩ true, Action.closeEnd]
      = some ⟨⟨[⟨0, 7⟩], true⟩, 2, [⟨0, 7⟩], [], ClosePc.returned, [],
          [Event.store ⟨0, 7⟩, Event.store ⟨1, 8⟩, Event.closingSet true,
           Event.readString 8 0, Event.delete ⟨1, 8⟩,
           Event.waitWithTimeout ⟨0, 7⟩ 10000 true, Event.connClose 7],
          [⟨1, 8⟩, ⟨0, 7⟩], [⟨1, 8⟩], [], [⟨0, 7⟩], [⟨0, 7⟩, ⟨1, 8⟩], [(⟨0, 7⟩, true)],
          [Event.closingSet true, Event.waitWithTimeout ⟨0, 7⟩ 10000 true, Event.connClose 7],
          some none⟩ := rfl
  ⟨hr, (close_closes_all_keeps_set _ _ hr rfl).1 ⟨0, 7⟩,
    (close_closes_all_keeps_set _ _ hr rfl).2.1 ⟨1, 8⟩ (by decide)⟩

/-- C4 as stated fails: two clients are registered when the sweep of `Close`
starts; while the sweep is at the first one, the call of `Handle` of the second
one reads end-of-stream and deletes it from the set; the sweep skips it, and
`Close` returns without having waited for it or closed its connection. -/
theorem sweep_skips_deregistered :
    (Sys.run Sys.init [Action.enter 7, Action.enter 8, Action.closeSet, Action.rangeStart,
        Action.rangeStep ⟨0, 7⟩ false, Action.iter ⟨1, 8⟩ ([], some ReadErr.EOF) true,
        Action.rangeStep ⟨1, 8⟩ false, Action.closeEnd]).map
        (fun s => (s.closePc, s.atStart, s.closeTrace, decide (Event.connClose 8 ∈ s.trace)))
      = some (ClosePc.returned, [⟨0, 7⟩, ⟨1, 8⟩],
          [Event.closingSet true, Event.waitWithTimeout ⟨0, 7⟩ 10000 false, Event.connClose 7],
          false) := by
  rfl

/-- C4, amended. The call of `Close` sets the closing flag before anything
else; after that its events are, for each client its sweep has run the callback
on, in that order, one wait for the drain token bounded by 10 seconds (10000 ms)
followed by the close of the client's connection, whether or not the wait timed
out, and nothing else.  Every client visited was registered when the sweep
started, none is visited twice, and each is waited for exactly once.  The sweep
does not stop early: when `Close` has returned, with a nil error, every client
registered when the sweep started has been visited, except those deleted from
the set because their own call of `Handle` observed end-of-stream, which the
sweep skips; in particular every one that is still registered has been waited
for and closed. -/
theorem close_sweep (acts : List Action) (s : Sys) (hrun : Sys.run Sys.init acts = some s) :
    (s.closePc = ClosePc.idle → s.closeTrace = []) ∧
    (s.closePc ≠ ClosePc.idle → s.h.closing = true ∧
      s.closeTrace = Event.closingSet true ::
        s.visited.flatMap
          (fun v => [Event.waitWithTimeout v.1 10000 v.2, Event.connClose v.1.Conn])) ∧
    (s.visited.map Prod.fst).Nodup ∧
    (∀ v ∈ s.visited, v.1 ∈ s.atStart ∧
      s.closeTrace.count (Event.waitWithTimeout v.1 10000 v.2) = 1) ∧
    (s.closePc = ClosePc.returned →
      s.closeRet = some none ∧
      (∀ c ∈ s.atStart, c ∈ s.visited.map Prod.fst ∨ c ∈ s.sawEOF) ∧
      (∀ c ∈ s.atStart, c ∈ s.h.activeConn →
        c ∈ s.visited.map Prod.fst ∧ Event.connClose c.Conn ∈ s.closeTrace)) := by
  have hinv := sys_run_inv acts Sys.init s hrun sys_init_inv
  obtain ⟨i1, i2, i3, i4, -, i6, i7, -, -, i10, i11⟩ :=
    sys_run_sweep acts Sys.init s hrun sys_init_inv sys_init_sweep
  have hvisit : ∀ c ∈ s.atStart, s.closePc = ClosePc.returned →
      c ∈ s.visited.map Prod.fst ∨ c ∈ s.sawEOF := by
    intro c hc hret
    rcases i6 c hc with h | h | h
    · rw [(i11 hret).1] at h
      simp at h
    · exact Or.inl h
    · exact Or.inr h
  refine ⟨i2, fun hne => ⟨i1 hne, i3 hne⟩, i4, ?_, ?_⟩
  · intro v hv
    refine ⟨i7 v hv, ?_⟩
    have hne : s.closePc ≠ ClosePc.idle := by
      intro hidle
      rw [(i10 (Or.inl hidle)).2.1] at hv
      simp at hv
    rw [i3 hne, List.count_cons_of_ne (by simp)]
    exact count_wait_flatMap s.visited i4 v hv
  · intro hret
    have hne : s.closePc ≠ ClosePc.idle := by rw [hret]; simp
    refine ⟨(i11 hret).2, fun c hc => hvisit c hc hret, ?_⟩
    intro c hc hact
    have hv : c ∈ s.visited.map Prod.fst := by
      rcases hvisit c hc hret with h | h
      · exact h
      · exact absurd h ((hinv.1 c).mp hact).2
    refine ⟨hv, ?_⟩
    rw [i3 hne]
    obtain ⟨v, hv1, hv2⟩ := List.mem_map.mp hv
    refine List.mem_cons_of_mem _ (List.mem_flatMap.mpr ⟨v, hv1, ?_⟩)
    rw [hv2]
    simp

theorem close_sweep_witness :
    Sys.run Sys.init [Action.enter 7, Action.enter 9, Action.closeSet, Action.rangeStart,
        Action.rangeStep ⟨1, 9⟩ true, Action.rangeStep ⟨0, 7⟩ false, Action.closeEnd]
      = some ⟨⟨[⟨0, 7⟩, ⟨1, 9⟩], true⟩, 2, [⟨1, 9⟩, ⟨0, 7⟩], [], ClosePc.returned, [],
          [Event.store ⟨0, 7⟩, Event.store ⟨1, 9⟩, Event.closingSet true,
           Event.waitWithTimeout ⟨1, 9⟩ 10000 true, Event.connClose 9,
           Event.waitWithTimeout ⟨0, 7⟩ 10000 false, Event.connClose 7],
          [⟨1, 9⟩, ⟨0, 7⟩], [], [], [⟨0, 7⟩, ⟨1, 9⟩], [⟨0, 7⟩, ⟨1, 9⟩],
          [(⟨1, 9⟩, true), (⟨0, 7⟩, false)],
          [Event.closingSet true,
           Event.waitWithTimeout ⟨1, 9⟩ 10000 true, Event.connClose 9,
           Event.waitWithTimeout ⟨0, 7⟩ 10000 false, Event.connClose 7],
          some none⟩ ∧
    ((ClosePc.returned = ClosePc.returned) →
      (some none : Option (Option Nat)) = some none ∧
      (∀ c ∈ [(⟨0, 7⟩ : EchoClient), ⟨1, 9⟩],
        c ∈ [((⟨1, 9⟩ : EchoClient), true), (⟨0, 7⟩, false)].map Prod.fst ∨
        c ∈ ([] : List EchoClient)) ∧
      (∀ c ∈ [(⟨0, 7⟩ : EchoClient), ⟨1, 9⟩], c ∈ [(⟨0, 7⟩ : EchoClient), ⟨1, 9⟩] →
        c ∈ [((⟨1, 9⟩ : EchoClient), true), (⟨0, 7⟩, false)].map Prod.fst ∧
        Event.connClose c.Conn ∈ [Event.closingSet true,
           Event.waitWithTimeout ⟨1, 9⟩ 10000 true, Event.connClose 9,
           Event.waitWithTimeout ⟨0, 7⟩ 10000 false, Event.connClose 7])) :=
  have hr : Sys.run Sys.init [Action.enter 7, Action.enter 9, Action.closeSet,
        Action.rangeStart, Action.rangeStep ⟨1, 9⟩ true, Action.rangeStep ⟨0, 7⟩ false,
        Action.closeEnd]
      = some ⟨⟨[⟨0, 7⟩, ⟨1, 9⟩], true⟩, 2, [⟨1, 9⟩, ⟨0, 7⟩], [], ClosePc.returned, [],
          [Event.store ⟨0, 7⟩, Event.store ⟨1, 9⟩, Event.closingSet true,
           Event.waitWithTimeout ⟨1, 9⟩ 10000 true, Event.connClose 9,
           Event.waitWithTimeout ⟨0, 7⟩ 10000 false, Event.connClose 7],
          [⟨1, 9⟩, ⟨0, 7⟩], [], [], [⟨0, 7⟩, ⟨1, 9⟩], [⟨0, 7⟩, ⟨1, 9⟩],
          [(⟨1, 9⟩, true), (⟨0, 7⟩, false)],
          [Event.closingSet true,
           Event.waitWithTimeout ⟨1, 9⟩ 10000 true, Event.connClose 9,
           Event.waitWithTimeout ⟨0, 7⟩ 10000 false, Event.connClose 7],
          some none⟩ := rfl
  ⟨hr, (close_sweep _ _ hr).2.2.2.2⟩

/-- C9 as stated fails: after `Handle` has returned because of a read error the
client is still in the active set, and after the sweep of `Close` every swept
client is still in it. -/
theorem active_set_keeps_failed_and_swept :
    (∃ s, Sys.run Sys.init [Action.enter 7, Action.iter ⟨0, 7⟩ ([], some (ReadErr.other 1)) true]
        = some s ∧
      (⟨0, 7⟩ : EchoClient) ∈ s.h.activeConn ∧ (⟨0, 7⟩ : EchoClient) ∈ s.registered ∧
      (⟨0, 7⟩ : EchoClient) ∈ s.sawErr ∧ (⟨0, 7⟩ : EchoClient) ∉ s.running) ∧
    (∃ s, Sys.run Sys.init [Action.enter 7, Action.close []] = some s ∧
      (⟨0, 7⟩ : EchoClient) ∈ s.h.activeConn ∧ (⟨0, 7⟩ : EchoClient) ∈ s.swept) := by
  refine ⟨⟨_, rfl, ?_, ?_, ?_, ?_⟩, ⟨_, rfl, ?_, ?_⟩⟩ <;> decide

/-- C9, amended. In every state the shared handler can reach from a fresh
handler, a client is in the active set if and only if `Handle` has registered it
and its call has not observed end-of-stream; no client is in the set twice.  A
read error and the sweep of `Close` leave the client in the set. -/
theorem active_set_invariant (acts : List Action) (s : Sys)
    (hrun : Sys.run Sys.init acts = some s) :
    (∀ c, c ∈ s.h.activeConn ↔ c ∈ s.registered ∧ c ∉ s.sawEOF) ∧ s.h.activeConn.Nodup := by
  have hinv := sys_run_inv acts Sys.init s hrun sys_init_inv
  exact ⟨hinv.1, hinv.2.2.2.2⟩

theorem active_set_invariant_witness :
    Sys.run Sys.init [Action.enter 7, Action.enter 8,
        Action.iter ⟨0, 7⟩ ([104, 10], none) true, Action.iter ⟨0, 7⟩ ([], some ReadErr.EOF) true]
      = some ⟨⟨[⟨1, 8⟩], false⟩, 2, [⟨1, 8⟩], [], ClosePc.idle, [],
          [Event.store ⟨0, 7⟩, Event.store ⟨1, 8⟩, Event.readString 7 0,
           Event.waitingAdd ⟨0, 7⟩ 1, Event.write 7 [104, 10] true 1,
           Event.waitingDone ⟨0, 7⟩ 0, Event.readString 7 0, Event.delete ⟨0, 7⟩],
          [⟨1, 8⟩, ⟨0, 7⟩], [⟨0, 7⟩], [], [], [], [], [], none⟩ ∧
    ((⟨1, 8⟩ : EchoClient) ∈ [(⟨1, 8⟩ : EchoClient)] ↔
      (⟨1, 8⟩ : EchoClient) ∈ [(⟨1, 8⟩ : EchoClient), ⟨0, 7⟩] ∧
      (⟨1, 8⟩ : EchoClient) ∉ [(⟨0, 7⟩ : EchoClient)]) :=
  have hr : Sys.run Sys.init [Action.enter 7, Action.enter 8,
        Action.iter ⟨0, 7⟩ ([104, 10], none) true, Action.iter ⟨0, 7⟩ ([], some ReadErr.EOF) true]
      = some ⟨⟨[⟨1, 8⟩], false⟩, 2, [⟨1, 8⟩], [], ClosePc.idle, [],
          [Event.store ⟨0, 7⟩, Event.store ⟨1, 8⟩, Event.readString 7 0,
           Event.waitingAdd ⟨0, 7⟩ 1, Event.write 7 [104, 10] true 1,
           Event.waitingDone ⟨0, 7⟩ 0, Event.readString 7 0, Event.delete ⟨0, 7⟩],
          [⟨1, 8⟩, ⟨0, 7⟩], [⟨0, 7⟩], [], [], [], [], [], none⟩ := rfl
  ⟨hr, (active_set_invariant _ _ hr).1 ⟨1, 8⟩⟩

/-! ## server.go : properties of `ListenAndServe` -/

/-- C5. Accept-loop error classification: let the calls of `Accept` return the
results `pre`, none of them an error outside the timeout class, then the error
`e` that is not of the timeout class, then anything.  After `pre` alone the loop
is still running and has asked for every result, so no timeout error ended it.
On the whole sequence the loop ends at `e` and the results after `e` are never
asked for.  Its trace is, result by result of `pre`: for a connection, the
accept, `ClientCounter++`, `waitDone.Add(1)` and the start of a worker on it; for
a timeout error, the accept and a sleep of 5 ms; then the accept of `e` and one
send of `e` on `errCh`.  Hence the results accepted are exactly `pre` and then
`e`, the only send is that of `e`, the workers spawned are exactly the
connections of `pre` in order, there are as many sleeps of 5 ms as errors in
`pre` and no other sleep, and every accept that returned a timeout error is
followed by a sleep of 5 ms and then by another accept. -/
theorem accept_loop_classification (pre rest : List AcceptResult) (e : AcceptErr)
    (hpre : ∀ r ∈ pre, r.isFatal = false) (he : e.isTimeout = false) :
    (acceptLoop pre).ended = false ∧ (acceptLoop pre).unread = [] ∧
    (acceptLoop (pre ++ AcceptResult.err e :: rest)).ended = true ∧
    (acceptLoop (pre ++ AcceptResult.err e :: rest)).unread = rest ∧
    (acceptLoop (pre ++ AcceptResult.err e :: rest)).events =
      (acceptLoop pre).events ++ [MainEvent.accept (AcceptResult.err e), MainEvent.sendErr e] ∧
    sendsOf (acceptLoop (pre ++ AcceptResult.err e :: rest)).events = [e] ∧
    spawnsOf (acceptLoop (pre ++ AcceptResult.err e :: rest)).events = connsOf pre ∧
    (∀ p q t, (acceptLoop (pre ++ AcceptResult.err e :: rest)).events
          = p ++ MainEvent.accept (AcceptResult.err t) :: q → t.isTimeout = true →
      ∃ r q2, q = MainEvent.sleep 5 :: MainEvent.accept r :: q2) ∧
    (acceptLoop (pre ++ AcceptResult.err e :: rest)).events =
      pre.flatMap (fun r =>
        match r with
        | AcceptResult.conn c => [MainEvent.accept (AcceptResult.conn c), MainEvent.counterInc,
            MainEvent.wgAdd, MainEvent.spawn c]
        | AcceptResult.err t => [MainEvent.accept (AcceptResult.err t), MainEvent.sleep 5])
      ++ [MainEvent.accept (AcceptResult.err e), MainEvent.sendErr e] ∧
    acceptsOf (acceptLoop (pre ++ AcceptResult.err e :: rest)).events
      = pre ++ [AcceptResult.err e] ∧
    (acceptLoop (pre ++ AcceptResult.err e :: rest)).events.count (MainEvent.sleep 5)
      = pre.countP AcceptResult.isErr ∧
    (∀ ms, MainEvent.sleep ms ∈ (acceptLoop (pre ++ AcceptResult.err e :: rest)).events →
      ms = 5) := by
  obtain ⟨h1, h2, h3, h4⟩ := acceptLoop_nonfatal pre hpre
  obtain ⟨t1, t2, t3, t4⟩ := acceptLoop_trace pre hpre
  have hf := acceptLoop_fatal e rest he pre hpre
  refine ⟨h1, h2, by rw [hf], by rw [hf], by rw [hf], ?_, ?_,
    acceptLoop_backoff e rest he pre hpre, ?_, ?_, ?_, ?_⟩
  · rw [hf]
    simp [sendsOf_append, h3, sendsOf]
  · rw [hf]
    simp [spawnsOf_append, h4, spawnsOf]
  · rw [hf, ← t1]
  · rw [hf]
    simp [acceptsOf_append, t2, acceptsOf]
  · rw [hf]
    simp [List.count_append, t3]
  · intro ms hm
    rw [hf] at hm
    simp only [List.mem_append, List.mem_cons, List.mem_singleton, List.not_mem_nil,
      or_false] at hm
    rcases hm with hm | hm | hm
    · exact t4 ms hm
    · simp at hm
    · simp at hm

theorem accept_loop_classification_witness :
    (∀ r ∈ [AcceptResult.conn 1, AcceptResult.err ⟨11, true, true⟩, AcceptResult.conn 2],
      r.isFatal = false) ∧
    (⟨24, true, false⟩ : AcceptErr).isTimeout = false ∧
    (acceptLoop ([AcceptResult.conn 1, AcceptResult.err ⟨11, true, true⟩, AcceptResult.conn 2]
        ++ AcceptResult.err ⟨24, true, false⟩ :: [AcceptResult.conn 3])).unread
      = [AcceptResult.conn 3] ∧
    spawnsOf (acceptLoop ([AcceptResult.conn 1, AcceptResult.err ⟨11, true, true⟩,
        AcceptResult.conn 2] ++ AcceptResult.err ⟨24, true, false⟩ :: [AcceptResult.conn 3])).events
      = connsOf [AcceptResult.conn 1, AcceptResult.err ⟨11, true, true⟩, AcceptResult.conn 2] ∧
    (acceptLoop ([AcceptResult.conn 1, AcceptResult.err ⟨11, true, true⟩, AcceptResult.conn 2]
        ++ AcceptResult.err ⟨24, true, false⟩ :: [AcceptResult.conn 3])).events.count
        (MainEvent.sleep 5)
      = [AcceptResult.conn 1, AcceptResult.err ⟨11, true, true⟩,
          AcceptResult.conn 2].countP AcceptResult.isErr :=
  have hp : ∀ r ∈ [AcceptResult.conn 1, AcceptResult.err ⟨11, true, true⟩, AcceptResult.conn 2],
      r.isFatal = false := by decide
  ⟨hp, rfl,
    (accept_loop_classification _ [AcceptResult.conn 3] ⟨24, true, false⟩ hp rfl).2.2.2.1,
    (accept_loop_classification _ [AcceptResult.conn 3] ⟨24, true, false⟩ hp rfl).2.2.2.2.2.2.1,
    (accept_loop_classification _ [AcceptResult.conn 3] ⟨24, true, false⟩
      hp rfl).2.2.2.2.2.2.2.2.2.2.1⟩

/-- C6. Shutdown runs at most once: in every state an execution of
`ListenAndServe` can reach, under any schedule, any accept results and any number
of values offered on `closeChan`, `listener.Close()` has been called at most once
and `handler.Close()` at most once; moreover the handler is closed only after
the listener, and returns from `Close` at most once. -/
theorem shutdown_at_most_once (cc : Int) (acts : List SAction) (s : Server)
    (hrun : Server.run (Server.init cc) acts = some s) :
    s.listenerCloses ≤ 1 ∧ s.handlerCloses ≤ 1 ∧
    s.handlerCloses ≤ s.listenerCloses ∧ s.handlerCloseReturns ≤ s.handlerCloses := by
  obtain ⟨h1, h2, h3, -⟩ := server_run_inv acts _ s hrun (server_init_inv cc)
  rw [h1, h2, h3]
  cases s.watcher <;> decide

theorem shutdown_at_most_once_witness :
    Server.run (Server.init 0)
      [SAction.signal, SAction.accept (AcceptResult.err ⟨24, true, false⟩), SAction.main,
       SAction.signal, SAction.watcher, SAction.watcher, SAction.signal, SAction.watcher,
       SAction.signal]
      = some ⟨MainPc.wgWait, WatcherPc.exited, [], [⟨24, true, false⟩], false, 0, 0, 1, 1, 1, 1,
          [AcceptResult.err ⟨24, true, false⟩], [⟨24, true, false⟩]⟩ ∧
    (1 ≤ 1 ∧ 1 ≤ 1 ∧ 1 ≤ 1 ∧ 1 ≤ 1) :=
  have hr : Server.run (Server.init 0)
      [SAction.signal, SAction.accept (AcceptResult.err ⟨24, true, false⟩), SAction.main,
       SAction.signal, SAction.watcher, SAction.watcher, SAction.signal, SAction.watcher,
       SAction.signal]
      = some ⟨MainPc.wgWait, WatcherPc.exited, [], [⟨24, true, false⟩], false, 0, 0, 1, 1, 1, 1,
          [AcceptResult.err ⟨24, true, false⟩], [⟨24, true, false⟩]⟩ :=
    rfl
  ⟨hr, shutdown_at_most_once 0 _ _ hr⟩

/-- C7 as stated fails: `ListenAndServe` can return while the watcher has
closed neither the listener nor the handler (a fatal accept error with no worker
running), while it has closed only the listener (shutdown by signal, then the
accept error caused by the closed listener), and while `handler.Close()` has
been called but has not returned. -/
theorem returns_before_shutdown :
    (Server.run (Server.init 0)
      [SAction.accept (AcceptResult.err ⟨24, true, false⟩), SAction.main, SAction.main,
       SAction.main]).map
        (fun s => (s.main, s.watcher, s.listenerCloses, s.handlerCloses))
      = some (MainPc.returned, WatcherPc.select, 0, 0) ∧
    (Server.run (Server.init 0)
      [SAction.signal, SAction.watcher, SAction.accept (AcceptResult.err ⟨24, true, false⟩),
       SAction.main, SAction.main, SAction.main]).map
        (fun s => (s.main, s.watcher, s.listenerCloses, s.handlerCloses))
      = some (MainPc.returned, WatcherPc.closeHandler, 1, 0) ∧
    (Server.run (Server.init 0)
      [SAction.signal, SAction.watcher, SAction.watcher,
       SAction.accept (AcceptResult.err ⟨24, true, false⟩),
       SAction.main, SAction.main, SAction.main]).map
        (fun s => (s.main, s.watcher, s.handlerCloses, s.handlerCloseReturns))
      = some (MainPc.returned, WatcherPc.inHandlerClose, 1, 0) := by
  refine ⟨rfl, rfl, rfl⟩

/-- C7, amended. In every reachable state in which `ListenAndServe` has
returned, the accept loop has ended on an accept error that is not of the
timeout class: the results `Accept` returned are some results `pre`, none of
them fatal, followed by that error `e`, and `e` is the one error sent on `errCh`
(one send in all); `errCh` is closed, the wait group is at zero, the workers are
exactly the connections of `pre` and the call of `Handle` of each of them has
returned; the watcher has not panicked and either has left its `select`, or
still finds `e` in `errCh`, so the shutdown is triggered; the closing of the
listener and of the handler may still be ahead. -/
theorem returns_after_loop_and_workers (cc : Int) (acts : List SAction) (s : Server)
    (hrun : Server.run (Server.init cc) acts = some s) (hret : s.main = MainPc.returned) :
    s.errSends = 1 ∧ s.errChClosed = true ∧ s.waitDone = 0 ∧
    (∀ w ∈ s.workers, w.2.handleReturned = true) ∧
    s.watcher ≠ WatcherPc.panicked ∧
    (s.watcher = WatcherPc.select → s.errCh ≠ []) ∧
    (∃ pre e, s.accepted = pre ++ [AcceptResult.err e] ∧ (∀ r ∈ pre, r.isFatal = false) ∧
      e.isTimeout = false ∧ s.sentErrs = [e] ∧
      s.workers.map Prod.fst = connsOf pre ∧
      (s.watcher = WatcherPc.select → s.errCh = [e])) := by
  obtain ⟨-, -, -, h4, h6, -, h8, h9, h10⟩ :=
    server_run_inv acts _ s hrun (server_init_inv cc)
  obtain ⟨-, -, l3, l4, l5⟩ := server_run_loop acts _ s hrun (server_init_loop cc)
  simp only [hret, MainPc.pendingAdd, MainPc.sent] at h4 h6
  have hwd : s.waitDone = 0 :=
    server_run_joined acts _ s hrun (server_init_joined cc) (Or.inr hret)
  have hzero : List.countP (fun w : Nat × WorkerPc => w.2.counted) s.workers = 0 := by
    omega
  obtain ⟨pre, e, hacc, hpre, he, hsent⟩ := l3 (by rw [hret]; rfl)
  refine ⟨h6, h8.mpr hret, hwd, ?_, h10, ?_, pre, e, hacc, hpre, he, hsent, ?_, ?_⟩
  · intro w hw
    rw [List.countP_eq_zero] at hzero
    have := hzero w hw
    cases hpc : w.2 <;> simp [hpc, WorkerPc.counted] at this <;> simp [WorkerPc.handleReturned]
  · intro hsel hnil
    have := h9 hsel
    rw [hnil] at this
    simp at this
    omega
  · simp only [hret, MainPc.pendingConn, List.append_nil] at l5
    rw [l5, hacc, connsOf_append]
    simp [connsOf]
  · intro hsel
    rw [l4 hsel, hsent]

theorem returns_after_loop_and_workers_witness :
    (Server.run (Server.init 0)
      [SAction.accept (AcceptResult.conn 4), SAction.main, SAction.main, SAction.main,
       SAction.main, SAction.accept (AcceptResult.err ⟨24, true, false⟩), SAction.main,
       SAction.worker 0, SAction.worker 0, SAction.worker 0, SAction.main, SAction.main]
      = some ⟨MainPc.returned, WatcherPc.select, [(4, WorkerPc.counterLoad)],
          [⟨24, true, false⟩], true, 0, 1, 0, 0, 0, 1,
          [AcceptResult.conn 4, AcceptResult.err ⟨24, true, false⟩], [⟨24, true, false⟩]⟩) ∧
    (1 = 1 ∧ true = true ∧ 0 = 0 ∧
      (∀ w ∈ [(4, WorkerPc.counterLoad)], w.2.handleReturned = true) ∧
      WatcherPc.select ≠ WatcherPc.panicked ∧
      (WatcherPc.select = WatcherPc.select → [(⟨24, true, false⟩ : AcceptErr)] ≠ []) ∧
      (∃ pre e, [AcceptResult.conn 4, AcceptResult.err ⟨24, true, false⟩]
          = pre ++ [AcceptResult.err e] ∧ (∀ r ∈ pre, r.isFatal = false) ∧
        e.isTimeout = false ∧ [(⟨24, true, false⟩ : AcceptErr)] = [e] ∧
        [(4, WorkerPc.counterLoad)].map Prod.fst = connsOf pre ∧
        (WatcherPc.select = WatcherPc.select → [(⟨24, true, false⟩ : AcceptErr)] = [e]))) :=
  have hr : Server.run (Server.init 0)
      [SAction.accept (AcceptResult.conn 4), SAction.main, SAction.main, SAction.main,
       SAction.main, SAction.accept (AcceptResult.err ⟨24, true, false⟩), SAction.main,
       SAction.worker 0, SAction.worker 0, SAction.worker 0, SAction.main, SAction.main]
      = some ⟨MainPc.returned, WatcherPc.select, [(4, WorkerPc.counterLoad)],
          [⟨24, true, false⟩], true, 0, 1, 0, 0, 0, 1,
          [AcceptResult.conn 4, AcceptResult.err ⟨24, true, false⟩], [⟨24, true, false⟩]⟩ := rfl
  ⟨hr, returns_after_loop_and_workers 0 _ _ hr rfl⟩

/-- C8, the code at the failing schedules.  First schedule: one connection is
accepted, then a fatal error; the worker's `Handle` returns and it calls
`waitDone.Done()`; `ListenAndServe` returns while the worker has not yet run
`ClientCounter--`, so the counter is 1 although it was 0 at the call and no
worker is inside `Handle`.  Second schedule: two connections; the first worker
reads `ClientCounter` (1) for its decrement, the caller then runs
`ClientCounter++` for the second connection (2), the first worker writes back 0,
and the second worker decrements to -1: every worker has finished,
`ListenAndServe` has returned, and the counter stays at -1 instead of 0. -/
theorem counter_not_restored_at_return :
    (Server.run (Server.init 0)
      [SAction.accept (AcceptResult.conn 4), SAction.main, SAction.main, SAction.main,
       SAction.main, SAction.accept (AcceptResult.err ⟨24, true, false⟩), SAction.main,
       SAction.worker 0, SAction.worker 0, SAction.worker 0, SAction.main, SAction.main]).map
        (fun s => (s.main, s.workers, s.waitDone, s.ClientCounter))
      = some (MainPc.returned, [(4, WorkerPc.counterLoad)], 0, 1) ∧
    (Server.run (Server.init 0)
      [SAction.accept (AcceptResult.conn 4), SAction.main, SAction.main, SAction.main,
       SAction.main, SAction.worker 0, SAction.worker 0, SAction.worker 0, SAction.worker 0,
       SAction.accept (AcceptResult.conn 5), SAction.main, SAction.main, SAction.worker 0,
       SAction.main, SAction.main, SAction.worker 1, SAction.worker 1, SAction.worker 1,
       SAction.worker 1, SAction.worker 1,
       SAction.accept (AcceptResult.err ⟨24, true, false⟩), SAction.main, SAction.main,
       SAction.main]).map
        (fun s => (s.main, s.workers, s.waitDone, s.ClientCounter))
      = some (MainPc.returned, [(4, WorkerPc.exited), (5, WorkerPc.exited)], 0, -1) ∧
    (1 : Int) ≠ 0 ∧ (-1 : Int) ≠ 0 := by
  refine ⟨rfl, rfl, by decide, by decide⟩

end tcp
end WuziGodis
